import Mathlib

/-! BigInt (bigint.hpp): a shallow embedding and its verification

A `std::string` is modelled as a `List Char`.  The private field `number`
holds the decimal digits of the magnitude in reverse reading order (the
constructors reverse their text), `is_negative` the sign.

Digit arithmetic is the source's `int` arithmetic: `c - '0'` is an `Int`,
`/` and `%` are the truncating `Int.tdiv` and `Int.tmod`, and
`static_cast<char>(d + '0')` is `Char.ofNat (d + 48)`.  On digit strings
no `int` of the source exceeds 99, so no wrap-around is modelled; string
lengths are natural numbers (the source casts them to `int`, exact below
`2^31` characters).

A constructor call that throws is the `Except.error` result; an index that
would leave its container is the `Error.out_of_range` result.
-/

namespace CSE701

/-! ## Data model -/

/-- What can go wrong: the `invalid_argument` exception of the string
constructor (with its message), and an index outside its container
(undefined behaviour in the source, made explicit here). -/
inductive Error where
  | invalid_argument (what : String)
  | out_of_range
deriving DecidableEq

/-- The class `BigInt`: `number` is the magnitude in reverse order,
`is_negative` the sign flag. -/
structure BigInt where
  number : List Char
  is_negative : Bool
deriving DecidableEq

/-- The expression `c - '0'`. -/
def digitVal (c : Char) : Int := (c.toNat : Int) - 48

/-- The expression `static_cast<char>(d + '0')`. -/
def digitChar (d : Int) : Char := Char.ofNat (d + 48).toNat

/-- The C function `isdigit` (C locale). -/
def isdigit (c : Char) : Bool := decide (48 ≤ c.toNat) && decide (c.toNat ≤ 57)

/-! ## Constructors -/

/-- `BigInt::BigInt()`. -/
def BigInt.default : BigInt := ⟨['0'], false⟩

/-- `INT64_MIN`. -/
def INT64_MIN : Int := -9223372036854775808

/-- `INT64_MAX`. -/
def INT64_MAX : Int := 9223372036854775807

/-- `std::to_string` on a signed integer: a `-` for a negative argument, then
the decimal digits of the absolute value. -/
def to_string (n : Int) : List Char :=
  if n < 0 then '-' :: Nat.toDigits 10 n.natAbs else Nat.toDigits 10 n.natAbs

/-- `BigInt::BigInt(int64_t num)`; `abs` is exact because `INT64_MIN` is
taken out before it is called. -/
def BigInt.ofInt64 (num : Int) : BigInt :=
  let is_negative := decide (num < 0)
  let number :=
    if num = INT64_MIN then "9223372036854775808".toList
    else to_string (if num < 0 then -num else num)
  ⟨number.reverse, is_negative⟩

/-- `BigInt::BigInt(const string &num)`.  `start` is 1 after a sign and 0
otherwise; the `while` loop advances it over the characters `'0'`; what is
left is copied if every character of it is a digit, then reversed. -/
def BigInt.ofString (num : List Char) : Except Error BigInt :=
  if num.isEmpty then .error (.invalid_argument "Input string is empty")
  else
    let is_negative := num.head? == some '-'
    let start := if num.head? == some '-' || num.head? == some '+' then 1 else 0
    let rest := (num.drop start).dropWhile (fun c => c == '0')
    if rest.isEmpty then .ok ⟨['0'], false⟩
    else if rest.all isdigit then .ok ⟨rest.reverse, is_negative⟩
    else .error (.invalid_argument "Invalid character in number string")

/-! ## Magnitude helpers -/

/-- The iterations of the loop of `addStrings` in which both iterators are at
`rend()` and only `carry` keeps it running; `fuel` bounds their number. -/
def carryLoop : Nat → Int → List Char
  | 0, _ => []
  | fuel + 1, carry =>
    if carry = 0 then []
    else digitChar (carry.tmod 10) :: carryLoop fuel (carry.tdiv 10)

/-- The iterations of the loop of `addStrings` in which one iterator is at
`rend()`; the list is what the other one has still to read. -/
def addTail : List Char → Int → List Char
  | [], carry => carryLoop carry.natAbs carry
  | x :: xs, carry =>
    let sum := carry + digitVal x
    digitChar (sum.tmod 10) :: addTail xs (sum.tdiv 10)

/-- The loop of `addStrings`: the lists are what `it1` and `it2` have still to
read (they start at `rbegin()`), the result is the characters pushed. -/
def addLoop : List Char → List Char → Int → List Char
  | [], ys, carry => addTail ys carry
  | x :: xs, [], carry => addTail (x :: xs) carry
  | x :: xs, y :: ys, carry =>
    let sum := carry + digitVal x + digitVal y
    digitChar (sum.tmod 10) :: addLoop xs ys (sum.tdiv 10)

/-- `BigInt::addStrings`. -/
def addStrings (num1 num2 : List Char) : List Char :=
  (addLoop num1.reverse num2.reverse 0).reverse

/-- One iteration of the loop of `subtractStrings` from its two digits and the
borrow: the character pushed and the new borrow. -/
def subStep (digit1 digit2 borrow : Int) : Char × Int :=
  let diff := digit1 - digit2 - borrow
  if diff < 0 then (digitChar (diff + 10), 1) else (digitChar diff, 0)

/-- The iterations of the loop of `subtractStrings` with `it2` at `rend()`. -/
def subTail1 : List Char → Int → List Char
  | [], _ => []
  | x :: xs, borrow =>
    (subStep (digitVal x) 0 borrow).1 :: subTail1 xs (subStep (digitVal x) 0 borrow).2

/-- The iterations of the loop of `subtractStrings` with `it1` at `rend()`. -/
def subTail2 : List Char → Int → List Char
  | [], _ => []
  | y :: ys, borrow =>
    (subStep 0 (digitVal y) borrow).1 :: subTail2 ys (subStep 0 (digitVal y) borrow).2

/-- The first loop of `subtractStrings`, on what the iterators have still to
read; the result is the characters pushed. -/
def subLoop : List Char → List Char → Int → List Char
  | [], ys, borrow => subTail2 ys borrow
  | x :: xs, [], borrow => subTail1 (x :: xs) borrow
  | x :: xs, y :: ys, borrow =>
    (subStep (digitVal x) (digitVal y) borrow).1 ::
      subLoop xs ys (subStep (digitVal x) (digitVal y) borrow).2

/-- The second loop of `subtractStrings` seen from the back of `result`:
while more than one character is left and the last one is `'0'`, drop it.
The argument is `result` reversed. -/
def stripFront : List Char → List Char
  | c :: d :: rest => if c == '0' then stripFront (d :: rest) else c :: d :: rest
  | l => l

/-- `BigInt::subtractStrings`. -/
def subtractStrings (num1 num2 : List Char) : List Char :=
  stripFront (subLoop num1.reverse num2.reverse 0).reverse

/-- The first pair of different characters met by two iterators advancing
together. -/
def firstDiff : List Char → List Char → Option (Char × Char)
  | x :: xs, y :: ys => if x != y then some (x, y) else firstDiff xs ys
  | _, _ => none

/-- `BigInt::isSmaller`. -/
def isSmaller (num1 num2 : List Char) : Bool :=
  if num1.length != num2.length then decide (num1.length < num2.length)
  else
    match firstDiff num1.reverse num2.reverse with
    | some (c1, c2) => decide (c1 < c2)
    | none => false

/-! ## Signed addition and subtraction -/

/-- `BigInt::add` (and `operator+`). -/
def BigInt.add (a other : BigInt) : Except Error BigInt :=
  if !a.is_negative && !other.is_negative then
    BigInt.ofString (addStrings a.number other.number)
  else if a.is_negative && other.is_negative then
    BigInt.ofString ('-' :: addStrings a.number other.number)
  else if a.is_negative then
    if isSmaller a.number other.number then
      BigInt.ofString (subtractStrings other.number a.number)
    else
      BigInt.ofString ('-' :: subtractStrings a.number other.number)
  else
    if isSmaller other.number a.number then
      BigInt.ofString (subtractStrings a.number other.number)
    else
      BigInt.ofString ('-' :: subtractStrings other.number a.number)

/-- `BigInt::subtract` (and `operator-`). -/
def BigInt.subtract (a other : BigInt) : Except Error BigInt :=
  if !a.is_negative && !other.is_negative then
    if isSmaller a.number other.number then
      BigInt.ofString ('-' :: subtractStrings other.number a.number)
    else
      BigInt.ofString (subtractStrings a.number other.number)
  else if a.is_negative && other.is_negative then
    if isSmaller a.number other.number then
      BigInt.ofString (subtractStrings other.number a.number)
    else
      BigInt.ofString ('-' :: subtractStrings a.number other.number)
  else if a.is_negative then
    BigInt.ofString ('-' :: addStrings a.number other.number)
  else
    BigInt.ofString (addStrings a.number other.number)

/-! ## Multiplication -/

/-- The inner `for` loop of `multiply` for a fixed `i`; the counter is `j + 1`,
so the loop ends when it reaches 0. -/
def innerLoop (n1_digit : Int) (other : List Char) (i : Nat) :
    Nat → List Int → Int → Except Error (List Int × Int)
  | 0, result, carry => .ok (result, carry)
  | j + 1, result, carry =>
    match other[j]?, result[i + j + 1]? with
    | some c, some r =>
      let n2_digit := digitVal c
      let sum := n1_digit * n2_digit + r + carry
      innerLoop n1_digit other i j (result.set (i + j + 1) (sum.tmod 10)) (sum.tdiv 10)
    | _, _ => .error .out_of_range

/-- The outer `for` loop of `multiply`; the counter is `i + 1`. -/
def outerLoop (number other : List Char) : Nat → List Int → Except Error (List Int)
  | 0, result => .ok result
  | i + 1, result =>
    match number[i]? with
    | none => .error .out_of_range
    | some c =>
      match innerLoop (digitVal c) other i other.length result 0 with
      | .error e => .error e
      | .ok (result1, carry) =>
        match result1[i + other.length]? with
        | none => .error .out_of_range
        | some r => outerLoop number other i (result1.set (i + other.length) (r + carry))

/-- The loop `s += to_string(result[i])`. -/
def concatDigits : List Int → List Char
  | [] => []
  | r :: rs => to_string r ++ concatDigits rs

/-- `BigInt::multiply` (and `operator*`). -/
def BigInt.multiply (a other : BigInt) : Except Error BigInt :=
  let n1 := a.number.length
  let n2 := other.number.length
  if n1 = 0 ∨ n2 = 0 then BigInt.ofString ['0']
  else
    match outerLoop a.number other.number n1 (List.replicate (n1 + n2) 0) with
    | .error e => .error e
    | .ok result =>
      let rest := result.dropWhile (fun r => r == 0)
      if rest.isEmpty then BigInt.ofString ['0']
      else
        match BigInt.ofString (concatDigits rest) with
        | .error e => .error e
        | .ok productResult =>
          .ok { productResult with is_negative := a.is_negative != other.is_negative }

/-! ## Negation, comparison, rendering -/

/-- The unary `BigInt::operator-`. -/
def BigInt.neg (a : BigInt) : BigInt :=
  if a.number != ['0'] then { a with is_negative := !a.is_negative } else a

/-- `BigInt::operator==`. -/
def BigInt.eq (a other : BigInt) : Bool :=
  a.number == other.number && a.is_negative == other.is_negative

/-- `BigInt::operator!=`. -/
def BigInt.ne (a other : BigInt) : Bool := !(a.eq other)

/-- `BigInt::operator<`; the index loop runs from the last stored character
down, on two strings of the same length. -/
def BigInt.lt (a other : BigInt) : Bool :=
  if a.is_negative != other.is_negative then a.is_negative
  else if a.number.length != other.number.length then
    if a.is_negative then decide (a.number.length > other.number.length)
    else decide (a.number.length < other.number.length)
  else
    match firstDiff a.number.reverse other.number.reverse with
    | some (c1, c2) => if a.is_negative then decide (c1 > c2) else decide (c1 < c2)
    | none => false

/-- `BigInt::operator>`. -/
def BigInt.gt (a other : BigInt) : Bool := other.lt a

/-- `BigInt::operator<=`. -/
def BigInt.le (a other : BigInt) : Bool := !(a.gt other)

/-- `BigInt::operator>=`. -/
def BigInt.ge (a other : BigInt) : Bool := !(a.lt other)

/-- `operator<<`: the text written to the stream. -/
def render (bigInt : BigInt) : List Char :=
  (if bigInt.is_negative then ['-'] else []) ++ bigInt.number.reverse

/-! ## Specification vocabulary -/

/-- The natural number denoted by a digit sequence stored least significant
digit first. -/
def magnitude : List Char → Nat
  | [] => 0
  | c :: cs => (c.toNat - 48) + 10 * magnitude cs

/-- The integer denoted by a `BigInt`: its sign flag applied to its magnitude. -/
def value (x : BigInt) : Int :=
  if x.is_negative then -(magnitude x.number : Int) else (magnitude x.number : Int)

/-- The representation invariant: a non-empty sequence of digit characters,
no zero at the most significant end unless the sequence is the single digit
`0`, and no negative zero. -/
def Inv (x : BigInt) : Prop :=
  x.number ≠ [] ∧ x.number.all isdigit = true ∧
  (x.number.getLast? = some '0' → x.number = ['0']) ∧
  (x.number = ['0'] → x.is_negative = false)

instance (x : BigInt) : Decidable (Inv x) := by
  unfold Inv
  infer_instance

/-- The digit portion with its leading zeros removed. -/
def stripLeadingZeros : List Char → List Char
  | [] => []
  | c :: cs => if c = '0' then stripLeadingZeros cs else c :: cs

/-- The canonical form of the text `sign ++ digits`: `"0"` when every digit
is zero; otherwise the digits without their leading zeros, after a `-` if
that is the sign (a `+` is dropped). -/
def canonicalForm (sign digits : List Char) : List Char :=
  if digits.all (fun c => c == '0') then ['0']
  else (if sign = ['-'] then ['-'] else []) ++ stripLeadingZeros digits

/-- The characters after the optional leading sign. -/
def afterSign : List Char → List Char
  | [] => []
  | c :: cs => if c = '-' ∨ c = '+' then cs else c :: cs

/-- A text the string constructor accepts as a number: an optional `-`
followed by one or more decimal digits. -/
def IsSignedDigits (s : List Char) : Prop :=
  (if s.head? = some '-' then s.tail else s) ≠ [] ∧
  (if s.head? = some '-' then s.tail else s).all isdigit = true

instance (s : List Char) : Decidable (IsSignedDigits s) := by
  unfold IsSignedDigits
  infer_instance

/-- The string that `add` hands to the string constructor. -/
def addArg (a other : BigInt) : List Char :=
  if !a.is_negative && !other.is_negative then addStrings a.number other.number
  else if a.is_negative && other.is_negative then '-' :: addStrings a.number other.number
  else if a.is_negative then
    if isSmaller a.number other.number then subtractStrings other.number a.number
    else '-' :: subtractStrings a.number other.number
  else
    if isSmaller other.number a.number then subtractStrings a.number other.number
    else '-' :: subtractStrings other.number a.number

/-- The string that `subtract` hands to the string constructor. -/
def subtractArg (a other : BigInt) : List Char :=
  if !a.is_negative && !other.is_negative then
    if isSmaller a.number other.number then '-' :: subtractStrings other.number a.number
    else subtractStrings a.number other.number
  else if a.is_negative && other.is_negative then
    if isSmaller a.number other.number then subtractStrings other.number a.number
    else '-' :: subtractStrings a.number other.number
  else if a.is_negative then '-' :: addStrings a.number other.number
  else addStrings a.number other.number

/-- The string that `multiply` hands to the string constructor once its loops
have filled the accumulator `result`: `"0"` if every cell is zero, otherwise
the cells from the first non-zero one on, each written with `to_string`. -/
def multiplyArg (result : List Int) : List Char :=
  if (result.dropWhile (fun r => r == 0)).isEmpty then ['0']
  else concatDigits (result.dropWhile (fun r => r == 0))

/-! ## Parsing and rendering -/

theorem isdigit_iff (c : Char) : isdigit c = true ↔ 48 ≤ c.toNat ∧ c.toNat ≤ 57 := by
  simp [isdigit]

theorem isdigit_ne_minus {c : Char} (h : isdigit c = true) : c ≠ '-' := by
  rintro rfl
  revert h
  decide

theorem isdigit_ne_plus {c : Char} (h : isdigit c = true) : c ≠ '+' := by
  rintro rfl
  revert h
  decide

theorem dropWhile_zero_eq_strip (l : List Char) :
    l.dropWhile (fun c => c == '0') = stripLeadingZeros l := by
  induction l with
  | nil => rfl
  | cons c cs ih =>
    by_cases h : c = '0'
    · simp [List.dropWhile_cons, stripLeadingZeros, h, ih]
    · simp [List.dropWhile_cons, stripLeadingZeros, h]

theorem strip_head_ne_zero (l : List Char) : (stripLeadingZeros l).head? ≠ some '0' := by
  induction l with
  | nil => simp [stripLeadingZeros]
  | cons c cs ih =>
    by_cases h : c = '0'
    · simpa [stripLeadingZeros, h] using ih
    · simp [stripLeadingZeros, h]

theorem strip_eq_nil_iff (l : List Char) :
    stripLeadingZeros l = [] ↔ l.all (fun c => c == '0') = true := by
  induction l with
  | nil => simp [stripLeadingZeros]
  | cons c cs ih =>
    by_cases hc : c = '0'
    · simp [stripLeadingZeros, hc, ih]
    · simp [stripLeadingZeros, hc]

theorem strip_all_isdigit_eq (l : List Char) :
    (stripLeadingZeros l).all isdigit = l.all isdigit := by
  induction l with
  | nil => simp [stripLeadingZeros]
  | cons c cs ih =>
    by_cases hc : c = '0'
    · subst hc
      have h0 : isdigit '0' = true := by decide
      simp [stripLeadingZeros, ih, h0]
    · simp [stripLeadingZeros, hc]

/-- The string constructor in closed form, on a non-empty text. -/
theorem ofString_cons (c : Char) (cs : List Char) :
    BigInt.ofString (c :: cs) =
      if stripLeadingZeros (afterSign (c :: cs)) = [] then .ok ⟨['0'], false⟩
      else if (stripLeadingZeros (afterSign (c :: cs))).all isdigit then
        .ok ⟨(stripLeadingZeros (afterSign (c :: cs))).reverse, c == '-'⟩
      else .error (.invalid_argument "Invalid character in number string") := by
  simp only [BigInt.ofString, List.isEmpty_cons, List.head?_cons, Bool.false_eq_true, if_false,
    dropWhile_zero_eq_strip, List.isEmpty_iff]
  by_cases h1 : c = '-'
  · subst h1
    simp [afterSign]
  · by_cases h2 : c = '+'
    · subst h2
      simp [afterSign]
    · simp [afterSign, h1, h2]

theorem ofString_inv {s : List Char} {r : BigInt} (h : BigInt.ofString s = .ok r) : Inv r := by
  cases s with
  | nil => simp [BigInt.ofString] at h
  | cons c cs =>
    rw [ofString_cons] at h
    split at h
    · cases h
      decide
    · rename_i hne
      split at h
      · rename_i hall
        cases h
        refine ⟨by simpa using hne, by simpa using hall, ?_, ?_⟩
        · intro hl
          exfalso
          rw [List.getLast?_reverse] at hl
          exact strip_head_ne_zero _ hl
        · intro hl
          exfalso
          dsimp only at hl
          have : (stripLeadingZeros (afterSign (c :: cs))).reverse.reverse = ['0'].reverse := by
            rw [hl]
          rw [List.reverse_reverse] at this
          exact strip_head_ne_zero (afterSign (c :: cs)) (by rw [this]; rfl)
      · cases h

theorem afterSign_append {sign digits : List Char}
    (hsign : sign = [] ∨ sign = ['+'] ∨ sign = ['-'])
    (hdig : digits.all isdigit = true) : afterSign (sign ++ digits) = digits := by
  rcases hsign with rfl | rfl | rfl
  · cases digits with
    | nil => rfl
    | cons d ds =>
      simp only [List.all_cons, Bool.and_eq_true] at hdig
      simp [afterSign, isdigit_ne_minus hdig.1, isdigit_ne_plus hdig.1]
  · simp [afterSign]
  · simp [afterSign]

/-- The string constructor on an optional sign followed by digits. -/
theorem ofString_decimal {sign digits : List Char}
    (hsign : sign = [] ∨ sign = ['+'] ∨ sign = ['-'])
    (hne : digits ≠ []) (hdig : digits.all isdigit = true) :
    BigInt.ofString (sign ++ digits) =
      .ok (if stripLeadingZeros digits = [] then ⟨['0'], false⟩
           else ⟨(stripLeadingZeros digits).reverse, decide (sign = ['-'])⟩) := by
  have hs := afterSign_append hsign hdig
  obtain ⟨c, cs, hcs⟩ : ∃ c cs, sign ++ digits = c :: cs := by
    cases h : sign ++ digits with
    | nil => simp at h; exact absurd h.2 hne
    | cons c cs => exact ⟨c, cs, rfl⟩
  have hneg : (c == '-') = decide (sign = ['-']) := by
    rcases hsign with rfl | rfl | rfl
    · cases digits with
      | nil => exact absurd rfl hne
      | cons d ds =>
        simp only [List.all_cons, Bool.and_eq_true] at hdig
        simp only [List.nil_append, List.cons.injEq] at hcs
        rw [← hcs.1]
        simp [isdigit_ne_minus hdig.1]
    · simp only [List.singleton_append, List.cons.injEq] at hcs
      rw [← hcs.1]
      decide
    · simp only [List.singleton_append, List.cons.injEq] at hcs
      rw [← hcs.1]
      decide
  rw [hcs] at hs
  rw [hcs, ofString_cons, hs, strip_all_isdigit_eq, hdig, hneg]
  by_cases h0 : stripLeadingZeros digits = [] <;> simp [h0]

/-- Claim C4, the parse/render round trip: a text made of an optional `+` or
`-` followed by one or more decimal digits is accepted by the string
constructor, and rendering the result gives its canonical form (leading
zeros stripped, `+` dropped, `-` kept only for a non-zero digit portion,
`"0"` for an all-zero digit portion). -/
theorem parse_render_roundtrip (sign digits : List Char)
    (hsign : sign = [] ∨ sign = ['+'] ∨ sign = ['-'])
    (hne : digits ≠ []) (hdig : digits.all isdigit = true) :
    ∃ r, BigInt.ofString (sign ++ digits) = .ok r ∧
      render r = canonicalForm sign digits := by
  refine ⟨_, ofString_decimal hsign hne hdig, ?_⟩
  by_cases h0 : stripLeadingZeros digits = []
  · have hz := (strip_eq_nil_iff digits).mp h0
    simp [h0, render, canonicalForm, hz]
  · have hz : ¬ digits.all (fun c => c == '0') = true := fun h =>
      h0 ((strip_eq_nil_iff digits).mpr h)
    by_cases hm : sign = ['-']
    · simp [h0, render, canonicalForm, hz, hm]
    · simp [h0, render, canonicalForm, hz, hm]

theorem parse_render_roundtrip_witness :
    ∃ r, BigInt.ofString (['-'] ++ ['0', '0', '7']) = .ok r ∧
      render r = canonicalForm ['-'] ['0', '0', '7'] :=
  parse_render_roundtrip ['-'] ['0', '0', '7'] (by decide) (by decide) (by decide)

/-- Claim C6, parsing rejects malformed text: the empty string is refused with
`invalid_argument`, and a non-empty string is refused (again with
`invalid_argument`) exactly when some character after the optional leading
sign is not a decimal digit; otherwise it is accepted. -/
theorem parse_rejects_malformed :
    BigInt.ofString [] = .error (.invalid_argument "Input string is empty") ∧
    ∀ s : List Char, s ≠ [] →
      ((BigInt.ofString s = .error (.invalid_argument "Invalid character in number string")
          ↔ ∃ c ∈ afterSign s, isdigit c = false) ∧
       ((∃ r, BigInt.ofString s = .ok r) ↔ ∀ c ∈ afterSign s, isdigit c = true)) := by
  refine ⟨rfl, ?_⟩
  intro s hs
  cases s with
  | nil => exact absurd rfl hs
  | cons c cs =>
    rw [ofString_cons, strip_all_isdigit_eq]
    by_cases hall : (afterSign (c :: cs)).all isdigit = true
    · rw [hall]
      have h1 : ∀ x ∈ afterSign (c :: cs), isdigit x = true := by
        simpa [List.all_eq_true] using hall
      have h2 : ¬ ∃ x ∈ afterSign (c :: cs), isdigit x = false := by
        rintro ⟨x, hx, hx2⟩
        rw [h1 x hx] at hx2
        cases hx2
      by_cases h0 : stripLeadingZeros (afterSign (c :: cs)) = []
      · rw [if_pos h0]
        exact ⟨⟨fun h => (by cases h), fun h => absurd h h2⟩, ⟨fun _ => h1, fun _ => ⟨_, rfl⟩⟩⟩
      · rw [if_neg h0, if_pos rfl]
        exact ⟨⟨fun h => (by cases h), fun h => absurd h h2⟩, ⟨fun _ => h1, fun _ => ⟨_, rfl⟩⟩⟩
    · have h1 : ∃ x ∈ afterSign (c :: cs), isdigit x = false := by
        simpa [List.all_eq_true] using hall
      have h2 : ¬ ∀ x ∈ afterSign (c :: cs), isdigit x = true := by
        intro h
        exact hall (by simpa [List.all_eq_true] using h)
      have h0 : stripLeadingZeros (afterSign (c :: cs)) ≠ [] := by
        intro h
        have := strip_all_isdigit_eq (afterSign (c :: cs))
        rw [h] at this
        exact hall (by rw [← this]; rfl)
      rw [if_neg h0, if_neg hall]
      exact ⟨⟨fun _ => h1, fun _ => rfl⟩, ⟨fun h => (by obtain ⟨r, hr⟩ := h; cases hr),
        fun h => absurd h h2⟩⟩

theorem parse_rejects_malformed_witness :
    (BigInt.ofString "00x".toList
        = .error (.invalid_argument "Invalid character in number string")
      ↔ ∃ c ∈ afterSign "00x".toList, isdigit c = false) ∧
    ((∃ r, BigInt.ofString "00x".toList = .ok r)
      ↔ ∀ c ∈ afterSign "00x".toList, isdigit c = true) :=
  parse_rejects_malformed.2 "00x".toList (by decide)

/-- Claim C7 as stated is refuted, a bare sign is not rejected: neither `"-"` nor
`"+"` makes the string constructor fail. -/
theorem bare_sign_not_rejected :
    ¬ (∃ e, BigInt.ofString ['-'] = .error e) ∧ ¬ (∃ e, BigInt.ofString ['+'] = .error e) := by
  constructor <;> rintro ⟨e, h⟩ <;> cases h

/-- Claim C7 as amended, a bare sign is accepted as zero: the string constructor
on `"-"` alone or `"+"` alone returns the value of the default constructor
(single digit `0`, not negative), which renders as `"0"`. -/
theorem bare_sign_is_zero :
    BigInt.ofString ['-'] = .ok BigInt.default ∧ BigInt.ofString ['+'] = .ok BigInt.default ∧
    render BigInt.default = ['0'] := by
  refine ⟨rfl, rfl, rfl⟩

/-! ## Decimal digits of a machine integer -/

theorem core_digitChar_toNat {d : Nat} (h : d < 10) : (Nat.digitChar d).toNat = 48 + d := by
  interval_cases d <;> rfl

theorem toDigitsCore_acc (fuel : Nat) : ∀ (n : Nat) (acc : List Char),
    Nat.toDigitsCore 10 fuel n acc = Nat.toDigitsCore 10 fuel n [] ++ acc := by
  induction fuel with
  | zero => intro n acc; rfl
  | succ fuel ih =>
    intro n acc
    simp only [Nat.toDigitsCore]
    by_cases h : n / 10 = 0
    · simp [h]
    · simp only [h, if_false]
      rw [ih (n / 10) (Nat.digitChar (n % 10) :: acc), ih (n / 10) [Nat.digitChar (n % 10)]]
      simp

theorem magnitude_append_singleton (l : List Char) (c : Char) :
    magnitude (l ++ [c]) = magnitude l + 10 ^ l.length * (c.toNat - 48) := by
  induction l with
  | nil => simp [magnitude]
  | cons x xs ih =>
    show magnitude (x :: (xs ++ [c])) = _
    rw [magnitude, ih, magnitude, List.length_cons, pow_succ]
    ring

/-- What `Nat.toDigitsCore` produces in base ten when the fuel exceeds the
number: digit characters, most significant first, denoting the number, the
first of them `'0'` only for the number zero. -/
theorem toDigitsCore_spec (fuel : Nat) : ∀ n : Nat, n < fuel →
    Nat.toDigitsCore 10 fuel n [] ≠ [] ∧
    (Nat.toDigitsCore 10 fuel n []).all isdigit = true ∧
    magnitude (Nat.toDigitsCore 10 fuel n []).reverse = n ∧
    ((Nat.toDigitsCore 10 fuel n []).head? = some '0' → n = 0) := by
  induction fuel with
  | zero => intro n h; omega
  | succ fuel ih =>
    intro n hn
    have hd : (Nat.digitChar (n % 10)).toNat = 48 + n % 10 :=
      core_digitChar_toNat (Nat.mod_lt _ (by decide))
    have hdig : isdigit (Nat.digitChar (n % 10)) = true := by
      rw [isdigit_iff, hd]
      have := Nat.mod_lt n (show 10 > 0 by decide)
      omega
    simp only [Nat.toDigitsCore]
    by_cases h : n / 10 = 0
    · have hlt : n < 10 := by omega
      simp only [h, if_true]
      refine ⟨by simp, by simp [hdig], ?_, ?_⟩
      · simp only [List.reverse_cons, List.reverse_nil, List.nil_append, magnitude, hd]
        omega
      · intro h0
        simp only [List.head?_cons, Option.some.injEq] at h0
        have h1 := hd
        rw [h0] at h1
        have h2 : ('0' : Char).toNat = 48 := rfl
        omega
    · simp only [h, if_false]
      rw [toDigitsCore_acc]
      obtain ⟨i1, i2, i3, i4⟩ := ih (n / 10) (by omega)
      refine ⟨by simp, ?_, ?_, ?_⟩
      · simp only [List.all_append, i2, List.all_cons, hdig, List.all_nil, Bool.and_self]
      · simp only [List.reverse_append, List.reverse_cons, List.reverse_nil, List.nil_append,
          List.singleton_append, magnitude, i3, hd]
        omega
      · intro h0
        exfalso
        apply h
        apply i4
        cases hc : Nat.toDigitsCore 10 fuel (n / 10) [] with
        | nil => exact absurd hc i1
        | cons x xs =>
          rw [hc] at h0
          simpa using h0

theorem toDigits_spec (n : Nat) :
    Nat.toDigits 10 n ≠ [] ∧ (Nat.toDigits 10 n).all isdigit = true ∧
    magnitude (Nat.toDigits 10 n).reverse = n ∧
    ((Nat.toDigits 10 n).head? = some '0' → n = 0) :=
  toDigitsCore_spec (n + 1) n (Nat.lt_succ_self n)

theorem stripLeadingZeros_of_head {l : List Char} (h : l.head? ≠ some '0') :
    stripLeadingZeros l = l := by
  cases l with
  | nil => rfl
  | cons c cs =>
    have : c ≠ '0' := by simpa using h
    simp [stripLeadingZeros, this]

/-- The integer constructor in closed form: the reversed decimal digits of
the absolute value, and the sign. -/
theorem ofInt64_closed (n : Int) :
    BigInt.ofInt64 n = ⟨(Nat.toDigits 10 n.natAbs).reverse, decide (n < 0)⟩ := by
  have hmin : "9223372036854775808".toList = Nat.toDigits 10 INT64_MIN.natAbs := by decide
  unfold BigInt.ofInt64
  by_cases h : n = INT64_MIN
  · simp only [h, if_true, hmin]
  · simp only [h, if_false, to_string]
    by_cases hneg : n < 0
    · have h1 : ¬ (-n < 0) := by omega
      simp only [hneg, if_true, h1, if_false, Int.natAbs_neg]
    · simp only [hneg, if_false]

theorem ofInt64_inv (n : Int) : Inv (BigInt.ofInt64 n) := by
  obtain ⟨s1, s2, _, s4⟩ := toDigits_spec n.natAbs
  have hlast : (Nat.toDigits 10 n.natAbs).reverse.getLast? = some '0' → n = 0 := by
    rw [List.getLast?_reverse]
    intro h
    have := s4 h
    omega
  rw [ofInt64_closed]
  refine ⟨by simpa using s1, by simpa using s2, ?_, ?_⟩
  · intro h
    have h0 := hlast h
    subst h0
    rfl
  · intro h
    have h0 : n = 0 := hlast (by dsimp only at h; rw [h]; rfl)
    subst h0
    rfl

/-- Claim C5, construction from a 64-bit signed integer is exact: for every
`int64_t` value `n` the constructed `BigInt` satisfies the invariant, denotes
`n`, renders as the decimal text of `n` (a `-` exactly for negative `n`,
then the digits without leading zeros) and is equal (`operator==`) to the
`BigInt` parsed from that text; `INT64_MIN` and `INT64_MAX` render as
`-9223372036854775808` and `9223372036854775807`. -/
theorem ofInt64_exact (n : Int) (hlo : INT64_MIN ≤ n) (hhi : n ≤ INT64_MAX) :
    Inv (BigInt.ofInt64 n) ∧
    value (BigInt.ofInt64 n) = n ∧
    render (BigInt.ofInt64 n) = to_string n ∧
    to_string n = (if n < 0 then ['-'] else []) ++ Nat.toDigits 10 n.natAbs ∧
    (∃ r, BigInt.ofString (to_string n) = .ok r ∧ (BigInt.ofInt64 n).eq r = true) ∧
    render (BigInt.ofInt64 INT64_MIN) = "-9223372036854775808".toList ∧
    render (BigInt.ofInt64 INT64_MAX) = "9223372036854775807".toList := by
  obtain ⟨s1, s2, s3, s4⟩ := toDigits_spec n.natAbs
  have hstr : to_string n = (if n < 0 then ['-'] else []) ++ Nat.toDigits 10 n.natAbs := by
    unfold to_string
    by_cases hneg : n < 0 <;> simp [hneg]
  have hbig := ofInt64_closed n
  refine ⟨ofInt64_inv n, ?_, ?_, hstr, ?_, by decide, by decide⟩
  · rw [hbig, value]
    simp only [s3]
    by_cases hneg : n < 0
    · simp only [hneg, decide_True, if_true]
      omega
    · simp only [hneg, decide_False, Bool.false_eq_true, if_false]
      omega
  · rw [hbig, hstr, render]
    by_cases hneg : n < 0 <;> simp [hneg]
  · have hsg : ((if n < 0 then ['-'] else []) : List Char) = [] ∨
        ((if n < 0 then ['-'] else []) : List Char) = ['+'] ∨
        ((if n < 0 then ['-'] else []) : List Char) = ['-'] := by
      by_cases hneg : n < 0 <;> simp [hneg]
    refine ⟨_, by rw [hstr]; exact ofString_decimal hsg s1 s2, ?_⟩
    rw [hbig]
    by_cases h0 : n = 0
    · subst h0
      rfl
    · have hh : (Nat.toDigits 10 n.natAbs).head? ≠ some '0' := fun h => h0 (by
        have := s4 h
        omega)
      rw [stripLeadingZeros_of_head hh]
      simp only [s1, if_false]
      by_cases hneg : n < 0 <;> simp [hneg, BigInt.eq]

theorem ofInt64_exact_witness :
    Inv (BigInt.ofInt64 (-42)) ∧
    value (BigInt.ofInt64 (-42)) = -42 ∧
    render (BigInt.ofInt64 (-42)) = to_string (-42) ∧
    to_string (-42) = (if (-42 : Int) < 0 then ['-'] else []) ++ Nat.toDigits 10 (-42 : Int).natAbs ∧
    (∃ r, BigInt.ofString (to_string (-42)) = .ok r ∧ (BigInt.ofInt64 (-42)).eq r = true) ∧
    render (BigInt.ofInt64 INT64_MIN) = "-9223372036854775808".toList ∧
    render (BigInt.ofInt64 INT64_MAX) = "9223372036854775807".toList :=
  ofInt64_exact (-42) (by decide) (by decide)

/-! ## Comparison -/

theorem char_lt_iff (a b : Char) : a < b ↔ a.toNat < b.toNat := by
  rw [Char.lt_iff_val_lt_val]
  exact Iff.rfl

theorem char_eq_of_toNat {a b : Char} (h : a.toNat = b.toNat) : a = b := by
  apply Char.ext
  cases a with
  | mk av ah =>
    cases b with
    | mk bv bh =>
      simp only [Char.toNat] at h
      exact UInt32.ext (by
        cases av
        cases bv
        simp_all [UInt32.toNat])

theorem magnitude_lt_pow : ∀ l : List Char, l.all isdigit = true →
    magnitude l < 10 ^ l.length := by
  intro l
  induction l with
  | nil => intro _; simp [magnitude]
  | cons c cs ih =>
    intro h
    simp only [List.all_cons, Bool.and_eq_true] at h
    have hc := (isdigit_iff c).mp h.1
    have := ih h.2
    simp only [magnitude, List.length_cons, pow_succ]
    omega

theorem magnitude_ge_pow : ∀ l : List Char, l ≠ [] → l.all isdigit = true →
    l.getLast? ≠ some '0' → 10 ^ (l.length - 1) ≤ magnitude l := by
  intro l
  induction l with
  | nil => intro h; exact absurd rfl h
  | cons c cs ih =>
    intro _ hd hl
    simp only [List.all_cons, Bool.and_eq_true] at hd
    cases cs with
    | nil =>
      have hc := (isdigit_iff c).mp hd.1
      have hne : c.toNat ≠ ('0' : Char).toNat := by
        intro h
        apply hl
        rw [char_eq_of_toNat h]
        rfl
      have h0 : ('0' : Char).toNat = 48 := rfl
      simp only [magnitude, List.length_cons, List.length_nil]
      omega
    | cons d ds =>
      have hl2 : (d :: ds).getLast? ≠ some '0' := by
        simpa [List.getLast?_cons_cons] using hl
      have := ih (by simp) hd.2 hl2
      simp only [List.length_cons, Nat.add_sub_cancel] at this ⊢
      rw [magnitude, pow_succ]
      omega

/-- The representation invariant on the digit sequence alone. -/
theorem inv_pos_of_ne_zero {l : List Char} (hne : l ≠ []) (hd : l.all isdigit = true)
    (hl : l.getLast? = some '0' → l = ['0']) (hz : l ≠ ['0']) : 0 < magnitude l := by
  have := magnitude_ge_pow l hne hd (fun h => hz (hl h))
  have h2 : 0 < 10 ^ (l.length - 1) := by positivity
  omega

theorem firstDiff_spec : ∀ xs ys : List Char, xs.length = ys.length →
    xs.all isdigit = true → ys.all isdigit = true →
    match firstDiff xs ys with
    | none => xs = ys
    | some (c1, c2) =>
      (c1 < c2 ∧ magnitude xs.reverse < magnitude ys.reverse) ∨
      (c2 < c1 ∧ magnitude ys.reverse < magnitude xs.reverse) := by
  intro xs
  induction xs with
  | nil =>
    intro ys hlen _ _
    cases ys with
    | nil => simp [firstDiff]
    | cons y ys => simp at hlen
  | cons x xs ih =>
    intro ys hlen hx hy
    cases ys with
    | nil => simp at hlen
    | cons y ys =>
      simp only [List.length_cons, Nat.add_right_cancel_iff] at hlen
      simp only [List.all_cons, Bool.and_eq_true] at hx hy
      have hmx := magnitude_lt_pow xs.reverse (by simpa using hx.2)
      have hmy := magnitude_lt_pow ys.reverse (by simpa using hy.2)
      rw [List.length_reverse] at hmx hmy
      rw [← hlen] at hmy
      simp only [List.reverse_cons, magnitude_append_singleton, List.length_reverse]
      rw [← hlen]
      by_cases hxy : x = y
      · subst hxy
        have := ih ys hlen hx.2 hy.2
        simp only [firstDiff, bne_self_eq_false, Bool.false_eq_true, if_false]
        cases hfd : firstDiff xs ys with
        | none =>
          rw [hfd] at this
          simp only at this ⊢
          rw [this]
        | some p =>
          obtain ⟨c1, c2⟩ := p
          rw [hfd] at this
          simp only at this ⊢
          rcases this with ⟨h1, h2⟩ | ⟨h1, h2⟩
          · exact Or.inl ⟨h1, by omega⟩
          · exact Or.inr ⟨h1, by omega⟩
      · have hne : (x != y) = true := by simpa using hxy
        simp only [firstDiff, hne, if_true]
        have hcx := (isdigit_iff x).mp hx.1
        have hcy := (isdigit_iff y).mp hy.1
        have hnat : x.toNat ≠ y.toNat := fun h => hxy (char_eq_of_toNat h)
        rcases Nat.lt_or_gt_of_ne hnat with hlt | hgt
        · left
          refine ⟨(char_lt_iff x y).mpr hlt, ?_⟩
          have hstep : 10 ^ xs.length * (x.toNat - 48 + 1) ≤ 10 ^ xs.length * (y.toNat - 48) :=
            Nat.mul_le_mul_left _ (by omega)
          rw [Nat.mul_add, Nat.mul_one] at hstep
          omega
        · right
          refine ⟨(char_lt_iff y x).mpr hgt, ?_⟩
          have hstep : 10 ^ xs.length * (y.toNat - 48 + 1) ≤ 10 ^ xs.length * (x.toNat - 48) :=
            Nat.mul_le_mul_left _ (by omega)
          rw [Nat.mul_add, Nat.mul_one] at hstep
          omega

theorem magnitude_lt_of_length_lt {xs ys : List Char} (hx : xs.all isdigit = true)
    (hyne : ys ≠ []) (hy : ys.all isdigit = true)
    (hyl : ys.getLast? = some '0' → ys = ['0']) (hxne : xs ≠ [])
    (hlen : xs.length < ys.length) : magnitude xs < magnitude ys := by
  have h1 := magnitude_lt_pow xs hx
  have hlast : ys.getLast? ≠ some '0' := by
    intro h
    have h0 := hyl h
    rw [h0] at hlen
    have : 0 < xs.length := List.length_pos.mpr hxne
    have h1len : (['0'] : List Char).length = 1 := rfl
    rw [h1len] at hlen
    omega
  have h2 := magnitude_ge_pow ys hyne hy hlast
  have h3 : 10 ^ xs.length ≤ 10 ^ (ys.length - 1) :=
    Nat.pow_le_pow_right (by decide) (by omega)
  omega

/-- On two digit sequences satisfying the invariant `isSmaller` decides the
order of the magnitudes. -/
theorem isSmaller_iff {xs ys : List Char}
    (hxne : xs ≠ []) (hx : xs.all isdigit = true) (hxl : xs.getLast? = some '0' → xs = ['0'])
    (hyne : ys ≠ []) (hy : ys.all isdigit = true) (hyl : ys.getLast? = some '0' → ys = ['0']) :
    isSmaller xs ys = true ↔ magnitude xs < magnitude ys := by
  unfold isSmaller
  by_cases hlen : xs.length = ys.length
  · have hne : (xs.length != ys.length) = false := by simp [hlen]
    simp only [hne, Bool.false_eq_true, if_false]
    have := firstDiff_spec xs.reverse ys.reverse (by simp [hlen]) (by simpa using hx)
      (by simpa using hy)
    cases hfd : firstDiff xs.reverse ys.reverse with
    | none =>
      rw [hfd] at this
      simp only at this
      have he : xs = ys := List.reverse_injective this
      simp [he]
    | some p =>
      obtain ⟨c1, c2⟩ := p
      rw [hfd] at this
      simp only [List.reverse_reverse] at this
      simp only [decide_eq_true_eq]
      rcases this with ⟨h1, h2⟩ | ⟨h1, h2⟩
      · exact ⟨fun _ => h2, fun _ => h1⟩
      · constructor
        · intro h
          have a1 := (char_lt_iff c1 c2).mp h
          have a2 := (char_lt_iff c2 c1).mp h1
          omega
        · intro h
          omega
  · have hne : (xs.length != ys.length) = true := by simpa using hlen
    simp only [hne, if_true, decide_eq_true_eq]
    constructor
    · intro h
      exact magnitude_lt_of_length_lt hx hyne hy hyl hxne h
    · intro h
      by_contra hc
      have := magnitude_lt_of_length_lt hy hxne hx hxl hyne (by omega)
      omega

theorem firstDiff_swap : ∀ xs ys : List Char,
    firstDiff ys xs = (firstDiff xs ys).map (fun p => (p.2, p.1)) := by
  intro xs
  induction xs with
  | nil => intro ys; cases ys <;> rfl
  | cons x xs ih =>
    intro ys
    cases ys with
    | nil => rfl
    | cons y ys =>
      by_cases hxy : x = y
      · subst hxy
        simp [firstDiff, ih ys]
      · have h1 : (x != y) = true := by simpa using hxy
        have h2 : (y != x) = true := by simpa using (fun h : y = x => hxy h.symm)
        simp [firstDiff, h1, h2]

/-- The operator `<` in terms of `isSmaller`. -/
theorem lt_eq_isSmaller (a b : BigInt) :
    a.lt b = if a.is_negative != b.is_negative then a.is_negative
      else if a.is_negative then isSmaller b.number a.number
      else isSmaller a.number b.number := by
  unfold BigInt.lt isSmaller
  by_cases hs : (a.is_negative != b.is_negative) = true
  · simp only [hs, if_true]
  · simp only [hs, if_false]
    by_cases hlen : a.number.length = b.number.length
    · have h1 : (a.number.length != b.number.length) = false := by simp [hlen]
      have h2 : (b.number.length != a.number.length) = false := by simp [hlen]
      simp only [h1, h2, Bool.false_eq_true, if_false]
      rw [firstDiff_swap a.number.reverse b.number.reverse]
      cases hfd : firstDiff a.number.reverse b.number.reverse with
      | none => simp
      | some p =>
        obtain ⟨c1, c2⟩ := p
        by_cases hn : a.is_negative = true <;> simp [hn]
    · have h1 : (a.number.length != b.number.length) = true := by simpa using hlen
      have h2 : (b.number.length != a.number.length) = true := by
        simpa using (fun h : b.number.length = a.number.length => hlen h.symm)
      simp only [h1, h2, if_true]

theorem magnitude_injective {xs ys : List Char}
    (hxne : xs ≠ []) (hx : xs.all isdigit = true) (hxl : xs.getLast? = some '0' → xs = ['0'])
    (hyne : ys ≠ []) (hy : ys.all isdigit = true) (hyl : ys.getLast? = some '0' → ys = ['0'])
    (h : magnitude xs = magnitude ys) : xs = ys := by
  by_cases hlen : xs.length = ys.length
  · have := firstDiff_spec xs.reverse ys.reverse (by simp [hlen]) (by simpa using hx)
      (by simpa using hy)
    cases hfd : firstDiff xs.reverse ys.reverse with
    | none =>
      rw [hfd] at this
      exact List.reverse_injective this
    | some p =>
      obtain ⟨c1, c2⟩ := p
      rw [hfd] at this
      simp only [List.reverse_reverse] at this
      rcases this with ⟨_, h2⟩ | ⟨_, h2⟩ <;> omega
  · rcases Nat.lt_or_gt_of_ne hlen with h1 | h1
    · have := magnitude_lt_of_length_lt hx hyne hy hyl hxne h1
      omega
    · have := magnitude_lt_of_length_lt hy hxne hx hxl hyne h1
      omega

theorem value_eq_iff {a b : BigInt} (ha : Inv a) (hb : Inv b) :
    value a = value b ↔ a = b := by
  constructor
  · intro h
    obtain ⟨a1, a2, a3, a4⟩ := ha
    obtain ⟨b1, b2, b3, b4⟩ := hb
    cases a with
    | mk an as =>
      cases b with
      | mk bn bs =>
        simp only at a1 a2 a3 a4 b1 b2 b3 b4
        simp only [value] at h
        have pa : as = true → 0 < magnitude an := fun hs =>
          inv_pos_of_ne_zero a1 a2 a3 (fun h0 => by rw [a4 h0] at hs; cases hs)
        have pb : bs = true → 0 < magnitude bn := fun hs =>
          inv_pos_of_ne_zero b1 b2 b3 (fun h0 => by rw [b4 h0] at hs; cases hs)
        cases as <;> cases bs
        · simp only [Bool.false_eq_true, if_false] at h
          rw [magnitude_injective a1 a2 a3 b1 b2 b3 (by omega)]
        · have := pb rfl
          simp only [Bool.false_eq_true, if_false, if_true] at h
          omega
        · have := pa rfl
          simp only [Bool.false_eq_true, if_false, if_true] at h
          omega
        · simp only [if_true] at h
          rw [magnitude_injective a1 a2 a3 b1 b2 b3 (by omega)]
  · intro h
    rw [h]

/-- Claim C8, the comparison operators agree with integer comparison: on
operands satisfying the representation invariant, `<`, `==`, `>`, `<=`, `>=`
and `!=` return the truth value of the same comparison of the denoted
integers. -/
theorem comparison_agrees_with_value (a b : BigInt) (ha : Inv a) (hb : Inv b) :
    (a.lt b = true ↔ value a < value b) ∧
    (a.eq b = true ↔ value a = value b) ∧
    (a.gt b = true ↔ value a > value b) ∧
    (a.le b = true ↔ value a ≤ value b) ∧
    (a.ge b = true ↔ value a ≥ value b) ∧
    (a.ne b = true ↔ value a ≠ value b) := by
  have hlt : ∀ x y : BigInt, Inv x → Inv y → (x.lt y = true ↔ value x < value y) := by
    intro x y hx hy
    obtain ⟨x1, x2, x3, x4⟩ := hx
    obtain ⟨y1, y2, y3, y4⟩ := hy
    rw [lt_eq_isSmaller]
    have sxy := isSmaller_iff x1 x2 x3 y1 y2 y3
    have syx := isSmaller_iff y1 y2 y3 x1 x2 x3
    have px : x.is_negative = true → 0 < magnitude x.number := fun hs =>
      inv_pos_of_ne_zero x1 x2 x3 (fun h0 => by rw [x4 h0] at hs; cases hs)
    have py : y.is_negative = true → 0 < magnitude y.number := fun hs =>
      inv_pos_of_ne_zero y1 y2 y3 (fun h0 => by rw [y4 h0] at hs; cases hs)
    unfold value
    cases hxs : x.is_negative <;> cases hys : y.is_negative
    · simp only [bne_self_eq_false, Bool.false_eq_true, if_false]
      rw [sxy]
      omega
    · have := py hys
      simp only [Bool.false_eq_true, if_false, if_true]
      constructor
      · intro h
        simp at h
      · intro h
        omega
    · have := px hxs
      simp only [Bool.false_eq_true, if_false, if_true]
      constructor
      · intro _
        omega
      · intro _
        simp
    · simp only [bne_self_eq_false, Bool.false_eq_true, if_false, if_true]
      rw [syx]
      omega
  have heq : a.eq b = true ↔ value a = value b := by
    rw [value_eq_iff ha hb]
    cases a
    cases b
    simp [BigInt.eq]
  have h1 := hlt a b ha hb
  have h2 := hlt b a hb ha
  refine ⟨h1, heq, h2, ?_, ?_, ?_⟩
  · unfold BigInt.le BigInt.gt
    rw [Bool.not_eq_true', ← Bool.not_eq_true, h2]
    omega
  · unfold BigInt.ge
    rw [Bool.not_eq_true', ← Bool.not_eq_true, h1]
    omega
  · unfold BigInt.ne
    rw [Bool.not_eq_true', ← Bool.not_eq_true, heq]

theorem comparison_agrees_with_value_witness :
    ((⟨['2', '1'], true⟩ : BigInt).lt ⟨['3'], true⟩ = true
      ↔ value ⟨['2', '1'], true⟩ < value ⟨['3'], true⟩) ∧
    ((⟨['2', '1'], true⟩ : BigInt).eq ⟨['3'], true⟩ = true
      ↔ value ⟨['2', '1'], true⟩ = value ⟨['3'], true⟩) ∧
    ((⟨['2', '1'], true⟩ : BigInt).gt ⟨['3'], true⟩ = true
      ↔ value ⟨['2', '1'], true⟩ > value ⟨['3'], true⟩) ∧
    ((⟨['2', '1'], true⟩ : BigInt).le ⟨['3'], true⟩ = true
      ↔ value ⟨['2', '1'], true⟩ ≤ value ⟨['3'], true⟩) ∧
    ((⟨['2', '1'], true⟩ : BigInt).ge ⟨['3'], true⟩ = true
      ↔ value ⟨['2', '1'], true⟩ ≥ value ⟨['3'], true⟩) ∧
    ((⟨['2', '1'], true⟩ : BigInt).ne ⟨['3'], true⟩ = true
      ↔ value ⟨['2', '1'], true⟩ ≠ value ⟨['3'], true⟩) :=
  comparison_agrees_with_value ⟨['2', '1'], true⟩ ⟨['3'], true⟩ (by decide) (by decide)

/-! ## The magnitude helpers produce digit strings -/

theorem isdigit_digitChar {d : Int} (h0 : 0 ≤ d) (h9 : d ≤ 9) : isdigit (digitChar d) = true := by
  have : d = 0 ∨ d = 1 ∨ d = 2 ∨ d = 3 ∨ d = 4 ∨ d = 5 ∨ d = 6 ∨ d = 7 ∨ d = 8 ∨ d = 9 := by
    omega
  rcases this with h | h | h | h | h | h | h | h | h | h <;> subst h <;> decide

theorem digitVal_bounds {c : Char} (h : isdigit c = true) : 0 ≤ digitVal c ∧ digitVal c ≤ 9 := by
  have := (isdigit_iff c).mp h
  unfold digitVal
  omega

theorem tmod_ten_bounds {a : Int} (h : 0 ≤ a) : 0 ≤ a.tmod 10 ∧ a.tmod 10 ≤ 9 := by
  rw [Int.tmod_eq_emod h (by decide)]
  omega

theorem tdiv_ten_bounds {a : Int} (h : 0 ≤ a) : 0 ≤ a.tdiv 10 ∧ a.tdiv 10 ≤ a / 10 := by
  rw [Int.tdiv_eq_ediv h (by decide)]
  omega

theorem carryLoop_digits : ∀ (fuel : Nat) (carry : Int), 0 ≤ carry →
    (carryLoop fuel carry).all isdigit = true := by
  intro fuel
  induction fuel with
  | zero => intro carry _; rfl
  | succ fuel ih =>
    intro carry h
    unfold carryLoop
    by_cases hc : carry = 0
    · simp [hc]
    · simp only [hc, if_false, List.all_cons, Bool.and_eq_true]
      exact ⟨isdigit_digitChar (tmod_ten_bounds h).1 (tmod_ten_bounds h).2,
        ih _ (tdiv_ten_bounds h).1⟩

theorem addTail_digits : ∀ (xs : List Char) (carry : Int), xs.all isdigit = true → 0 ≤ carry →
    (addTail xs carry).all isdigit = true := by
  intro xs
  induction xs with
  | nil => intro carry _ h; exact carryLoop_digits _ carry h
  | cons x xs ih =>
    intro carry hx h
    simp only [List.all_cons, Bool.and_eq_true] at hx
    have hv := digitVal_bounds hx.1
    have hs : 0 ≤ carry + digitVal x := by omega
    simp only [addTail, List.all_cons, Bool.and_eq_true]
    exact ⟨isdigit_digitChar (tmod_ten_bounds hs).1 (tmod_ten_bounds hs).2,
      ih _ hx.2 (tdiv_ten_bounds hs).1⟩

theorem addLoop_digits : ∀ (xs ys : List Char) (carry : Int), xs.all isdigit = true →
    ys.all isdigit = true → 0 ≤ carry → (addLoop xs ys carry).all isdigit = true := by
  intro xs
  induction xs with
  | nil => intro ys carry _ hy h; exact addTail_digits ys carry hy h
  | cons x xs ih =>
    intro ys carry hx hy h
    cases ys with
    | nil => exact addTail_digits (x :: xs) carry hx h
    | cons y ys =>
      simp only [List.all_cons, Bool.and_eq_true] at hx hy
      have hvx := digitVal_bounds hx.1
      have hvy := digitVal_bounds hy.1
      have hs : 0 ≤ carry + digitVal x + digitVal y := by omega
      simp only [addLoop, List.all_cons, Bool.and_eq_true]
      exact ⟨isdigit_digitChar (tmod_ten_bounds hs).1 (tmod_ten_bounds hs).2,
        ih _ _ hx.2 hy.2 (tdiv_ten_bounds hs).1⟩

theorem addLoop_ne_nil (xs ys : List Char) (carry : Int) (h : xs ≠ []) :
    addLoop xs ys carry ≠ [] := by
  cases xs with
  | nil => exact absurd rfl h
  | cons x xs => cases ys <;> simp [addLoop, addTail]

theorem addStrings_digits {num1 num2 : List Char} (h1 : num1.all isdigit = true)
    (h2 : num2.all isdigit = true) (hne : num1 ≠ []) :
    addStrings num1 num2 ≠ [] ∧ (addStrings num1 num2).all isdigit = true := by
  unfold addStrings
  constructor
  · intro h
    exact addLoop_ne_nil num1.reverse num2.reverse 0 (by simpa using hne) (by simpa using h)
  · rw [List.all_reverse]
    exact addLoop_digits _ _ 0 (by simpa using h1) (by simpa using h2) (le_refl 0)

theorem subStep_bounds {d1 d2 borrow : Int} (h1 : 0 ≤ d1 ∧ d1 ≤ 9) (h2 : 0 ≤ d2 ∧ d2 ≤ 9)
    (hb : 0 ≤ borrow ∧ borrow ≤ 1) :
    isdigit (subStep d1 d2 borrow).1 = true ∧
    0 ≤ (subStep d1 d2 borrow).2 ∧ (subStep d1 d2 borrow).2 ≤ 1 := by
  unfold subStep
  by_cases h : d1 - d2 - borrow < 0
  · simp only [h, if_true]
    exact ⟨isdigit_digitChar (by omega) (by omega), by decide, by decide⟩
  · simp only [h, if_false]
    exact ⟨isdigit_digitChar (by omega) (by omega), by decide, by decide⟩

theorem subTail1_digits : ∀ (xs : List Char) (borrow : Int), xs.all isdigit = true →
    0 ≤ borrow ∧ borrow ≤ 1 → (subTail1 xs borrow).all isdigit = true := by
  intro xs
  induction xs with
  | nil => intro _ _ _; rfl
  | cons x xs ih =>
    intro borrow hx hb
    simp only [List.all_cons, Bool.and_eq_true] at hx
    have hstep := subStep_bounds (digitVal_bounds hx.1) ⟨le_refl 0, by decide⟩ hb
    simp only [subTail1, List.all_cons, Bool.and_eq_true]
    exact ⟨hstep.1, ih _ hx.2 hstep.2⟩

theorem subTail2_digits : ∀ (ys : List Char) (borrow : Int), ys.all isdigit = true →
    0 ≤ borrow ∧ borrow ≤ 1 → (subTail2 ys borrow).all isdigit = true := by
  intro ys
  induction ys with
  | nil => intro _ _ _; rfl
  | cons y ys ih =>
    intro borrow hy hb
    simp only [List.all_cons, Bool.and_eq_true] at hy
    have hstep := subStep_bounds ⟨le_refl 0, by decide⟩ (digitVal_bounds hy.1) hb
    simp only [subTail2, List.all_cons, Bool.and_eq_true]
    exact ⟨hstep.1, ih _ hy.2 hstep.2⟩

theorem subLoop_digits : ∀ (xs ys : List Char) (borrow : Int), xs.all isdigit = true →
    ys.all isdigit = true → 0 ≤ borrow ∧ borrow ≤ 1 →
    (subLoop xs ys borrow).all isdigit = true := by
  intro xs
  induction xs with
  | nil => intro ys borrow _ hy hb; exact subTail2_digits ys borrow hy hb
  | cons x xs ih =>
    intro ys borrow hx hy hb
    cases ys with
    | nil => exact subTail1_digits (x :: xs) borrow hx hb
    | cons y ys =>
      simp only [List.all_cons, Bool.and_eq_true] at hx hy
      have hstep := subStep_bounds (digitVal_bounds hx.1) (digitVal_bounds hy.1) hb
      simp only [subLoop, List.all_cons, Bool.and_eq_true]
      exact ⟨hstep.1, ih _ _ hx.2 hy.2 hstep.2⟩

theorem subLoop_ne_nil (xs ys : List Char) (borrow : Int) (h : xs ≠ []) :
    subLoop xs ys borrow ≠ [] := by
  cases xs with
  | nil => exact absurd rfl h
  | cons x xs => cases ys <;> simp [subLoop, subTail1]

theorem stripFront_spec : ∀ l : List Char, l ≠ [] → l.all isdigit = true →
    stripFront l ≠ [] ∧ (stripFront l).all isdigit = true := by
  intro l
  induction l with
  | nil => intro h; exact absurd rfl h
  | cons c cs ih =>
    intro _ hd
    cases cs with
    | nil => exact ⟨by simp [stripFront], by simpa [stripFront] using hd⟩
    | cons d ds =>
      by_cases hc : c = '0'
      · have hd2 : (d :: ds).all isdigit = true := by
          simp only [List.all_cons, Bool.and_eq_true] at hd ⊢
          exact hd.2
        simpa [stripFront, hc] using ih (by simp) hd2
      · have : (c == '0') = false := by simpa using hc
        simp only [stripFront, this, Bool.false_eq_true, if_false]
        exact ⟨by simp, hd⟩

theorem subtractStrings_digits {num1 num2 : List Char} (h1 : num1.all isdigit = true)
    (h2 : num2.all isdigit = true) (hne : num1 ≠ []) :
    subtractStrings num1 num2 ≠ [] ∧ (subtractStrings num1 num2).all isdigit = true := by
  unfold subtractStrings
  apply stripFront_spec
  · intro h
    exact subLoop_ne_nil num1.reverse num2.reverse 0 (by simpa using hne) (by simpa using h)
  · rw [List.all_reverse]
    exact subLoop_digits _ _ 0 (by simpa using h1) (by simpa using h2) ⟨le_refl 0, by decide⟩

theorem isSignedDigits_plain {s : List Char} (h : s ≠ [] ∧ s.all isdigit = true) :
    IsSignedDigits s := by
  have hh : ¬ s.head? = some '-' := by
    cases s with
    | nil => simp
    | cons c cs =>
      have hc : isdigit c = true := by
        have := h.2
        simp only [List.all_cons, Bool.and_eq_true] at this
        exact this.1
      simpa using isdigit_ne_minus hc
  unfold IsSignedDigits
  rw [if_neg hh]
  exact h

theorem isSignedDigits_minus {s : List Char} (h : s ≠ [] ∧ s.all isdigit = true) :
    IsSignedDigits ('-' :: s) := by
  unfold IsSignedDigits
  rw [if_pos (by rfl)]
  exact h

/-- The string constructor accepts every optional `-` followed by digits, and
what it builds satisfies the invariant. -/
theorem ofString_signed {s : List Char} (h : IsSignedDigits s) :
    ∃ r, BigInt.ofString s = .ok r ∧ Inv r := by
  unfold IsSignedDigits at h
  by_cases hh : s.head? = some '-'
  · rw [if_pos hh] at h
    have hs : s = ['-'] ++ s.tail := by
      cases s with
      | nil => simp at hh
      | cons c cs =>
        simp only [List.head?_cons, Option.some.injEq] at hh
        rw [hh]
        rfl
    have := ofString_decimal (Or.inr (Or.inr rfl)) h.1 h.2
    rw [← hs] at this
    exact ⟨_, this, ofString_inv this⟩
  · rw [if_neg hh] at h
    have := ofString_decimal (Or.inl rfl) h.1 h.2
    rw [List.nil_append] at this
    exact ⟨_, this, ofString_inv this⟩

theorem add_eq_addArg (a b : BigInt) : a.add b = BigInt.ofString (addArg a b) := by
  unfold BigInt.add addArg
  split
  · rfl
  · split
    · rfl
    · split <;> split <;> rfl

theorem subtract_eq_subtractArg (a b : BigInt) :
    a.subtract b = BigInt.ofString (subtractArg a b) := by
  unfold BigInt.subtract subtractArg
  split
  · split <;> rfl
  · split
    · split <;> rfl
    · split <;> rfl

theorem addArg_signed {a b : BigInt} (ha : Inv a) (hb : Inv b) : IsSignedDigits (addArg a b) := by
  obtain ⟨a1, a2, _, _⟩ := ha
  obtain ⟨b1, b2, _, _⟩ := hb
  unfold addArg
  split
  · exact isSignedDigits_plain (addStrings_digits a2 b2 a1)
  · split
    · exact isSignedDigits_minus (addStrings_digits a2 b2 a1)
    · split <;> split
      · exact isSignedDigits_plain (subtractStrings_digits b2 a2 b1)
      · exact isSignedDigits_minus (subtractStrings_digits a2 b2 a1)
      · exact isSignedDigits_plain (subtractStrings_digits a2 b2 a1)
      · exact isSignedDigits_minus (subtractStrings_digits b2 a2 b1)

theorem subtractArg_signed {a b : BigInt} (ha : Inv a) (hb : Inv b) :
    IsSignedDigits (subtractArg a b) := by
  obtain ⟨a1, a2, _, _⟩ := ha
  obtain ⟨b1, b2, _, _⟩ := hb
  unfold subtractArg
  split
  · split
    · exact isSignedDigits_minus (subtractStrings_digits b2 a2 b1)
    · exact isSignedDigits_plain (subtractStrings_digits a2 b2 a1)
  · split
    · split
      · exact isSignedDigits_plain (subtractStrings_digits b2 a2 b1)
      · exact isSignedDigits_minus (subtractStrings_digits a2 b2 a1)
    · split
      · exact isSignedDigits_minus (addStrings_digits a2 b2 a1)
      · exact isSignedDigits_plain (addStrings_digits a2 b2 a1)

/-- The fuel given to `carryLoop` by `addTail` is enough: with any fuel of at
least the absolute value of the carry the loop pushes the same characters, so
it always ends because the carry has reached zero. -/
theorem carryLoop_fuel : ∀ (f1 f2 : Nat) (carry : Int), carry.natAbs ≤ f1 → carry.natAbs ≤ f2 →
    carryLoop f1 carry = carryLoop f2 carry := by
  intro f1
  induction f1 with
  | zero =>
    intro f2 carry h1 _
    have hc : carry = 0 := by omega
    subst hc
    cases f2 <;> simp [carryLoop]
  | succ f1 ih =>
    intro f2 carry h1 h2
    by_cases hc : carry = 0
    · subst hc
      cases f2 <;> simp [carryLoop]
    · have hdiv : (carry.tdiv 10).natAbs < carry.natAbs := by
        rw [Int.natAbs_tdiv]
        have hpos : 0 < carry.natAbs := Int.natAbs_pos.mpr hc
        have h10 : (10 : Int).natAbs = 10 := rfl
        rw [h10]
        exact Nat.div_lt_self hpos (by decide)
      cases f2 with
      | zero => omega
      | succ f2 =>
        simp only [carryLoop, hc, if_false]
        rw [ih f2 (carry.tdiv 10) (by omega) (by omega)]

/-! ## The loops of `multiply` -/

theorem innerLoop_ok (n1_digit : Int) (other : List Char) (i : Nat) (hn : 0 ≤ n1_digit)
    (ho : other.all isdigit = true) :
    ∀ (j : Nat) (result : List Int) (carry : Int), j ≤ other.length →
      i + other.length < result.length → (∀ r ∈ result, 0 ≤ r) → 0 ≤ carry →
      ∃ result1 carry1, innerLoop n1_digit other i j result carry = .ok (result1, carry1) ∧
        result1.length = result.length ∧ (∀ r ∈ result1, 0 ≤ r) ∧ 0 ≤ carry1 := by
  intro j
  induction j with
  | zero =>
    intro result carry _ _ hr hc
    exact ⟨result, carry, rfl, rfl, hr, hc⟩
  | succ j ih =>
    intro result carry hj hlen hr hc
    have hj1 : j < other.length := by omega
    have hi1 : i + j + 1 < result.length := by omega
    have e1 : other[j]? = some other[j] := List.getElem?_eq_getElem hj1
    have e2 : result[i + j + 1]? = some result[i + j + 1] := List.getElem?_eq_getElem hi1
    have hd := digitVal_bounds (List.all_eq_true.mp ho _ (List.getElem?_mem e1))
    have hr0 : 0 ≤ result[i + j + 1] := hr _ (List.getElem?_mem e2)
    have hs : 0 ≤ n1_digit * digitVal other[j] + result[i + j + 1] + carry := by
      have := Int.mul_nonneg hn hd.1
      omega
    simp only [innerLoop, e1, e2]
    have hr2 : ∀ r ∈ result.set (i + j + 1)
        ((n1_digit * digitVal other[j] + result[i + j + 1] + carry).tmod 10), 0 ≤ r := by
      intro r hmem
      rcases List.mem_or_eq_of_mem_set hmem with h | h
      · exact hr r h
      · rw [h]
        exact (tmod_ten_bounds hs).1
    obtain ⟨result1, carry1, h1, h2, h3, h4⟩ :=
      ih (result.set (i + j + 1)
          ((n1_digit * digitVal other[j] + result[i + j + 1] + carry).tmod 10))
        ((n1_digit * digitVal other[j] + result[i + j + 1] + carry).tdiv 10)
        (by omega) (by rw [List.length_set]; exact hlen) hr2 (tdiv_ten_bounds hs).1
    exact ⟨result1, carry1, h1, by rw [h2, List.length_set], h3, h4⟩

theorem outerLoop_ok (number other : List Char) (hnum : number.all isdigit = true)
    (ho : other.all isdigit = true) :
    ∀ (i : Nat) (result : List Int), i ≤ number.length →
      result.length = number.length + other.length → (∀ r ∈ result, 0 ≤ r) →
      ∃ result1, outerLoop number other i result = .ok result1 ∧
        result1.length = number.length + other.length ∧ (∀ r ∈ result1, 0 ≤ r) := by
  intro i
  induction i with
  | zero =>
    intro result _ hlen hr
    exact ⟨result, rfl, hlen, hr⟩
  | succ i ih =>
    intro result hi hlen hr
    have hi1 : i < number.length := by omega
    have e1 : number[i]? = some number[i] := List.getElem?_eq_getElem hi1
    have hd := digitVal_bounds (List.all_eq_true.mp hnum _ (List.getElem?_mem e1))
    obtain ⟨result1, carry1, h1, h2, h3, h4⟩ :=
      innerLoop_ok (digitVal number[i]) other i hd.1 ho other.length result 0 (le_refl _)
        (by omega) hr (le_refl 0)
    have hi2 : i + other.length < result1.length := by omega
    have e2 : result1[i + other.length]? = some result1[i + other.length] :=
      List.getElem?_eq_getElem hi2
    have hr0 : 0 ≤ result1[i + other.length] := h3 _ (List.getElem?_mem e2)
    simp only [outerLoop, e1, h1, e2]
    apply ih
    · omega
    · rw [List.length_set, h2, hlen]
    · intro r hmem
      rcases List.mem_or_eq_of_mem_set hmem with h | h
      · exact h3 r h
      · rw [h]
        omega

theorem to_string_nonneg {r : Int} (h : 0 ≤ r) : to_string r = Nat.toDigits 10 r.natAbs := by
  have : ¬ r < 0 := by omega
  simp [to_string, this]

theorem concatDigits_digits : ∀ rest : List Int, (∀ r ∈ rest, 0 ≤ r) →
    (concatDigits rest).all isdigit = true := by
  intro rest
  induction rest with
  | nil => intro _; rfl
  | cons r rs ih =>
    intro h
    rw [concatDigits, List.all_append, to_string_nonneg (h r (List.mem_cons_self r rs)),
      (toDigits_spec r.natAbs).2.1, ih (fun x hx => h x (List.mem_cons_of_mem r hx))]
    rfl

theorem concatDigits_head {r : Int} (rs : List Int) (h : 0 < r) :
    concatDigits (r :: rs) ≠ [] ∧ (concatDigits (r :: rs)).head? ≠ some '0' := by
  obtain ⟨s1, _, _, s4⟩ := toDigits_spec r.natAbs
  rw [concatDigits, to_string_nonneg (le_of_lt h)]
  cases hd : Nat.toDigits 10 r.natAbs with
  | nil => exact absurd hd s1
  | cons c cs =>
    refine ⟨by simp, ?_⟩
    intro h0
    have : r.natAbs = 0 := s4 (by rw [hd]; simpa using h0)
    omega

theorem dropWhile_zero_head : ∀ (l : List Int) (r : Int) (rs : List Int),
    l.dropWhile (fun x => x == 0) = r :: rs → r ≠ 0 := by
  intro l
  induction l with
  | nil => intro r rs h; simp at h
  | cons x xs ih =>
    intro r rs h
    by_cases hx : x = 0
    · subst hx
      simp only [List.dropWhile_cons, beq_self_eq_true, if_true] at h
      exact ih r rs h
    · have hx2 : (x == 0) = false := by simpa using hx
      simp only [List.dropWhile_cons, hx2, Bool.false_eq_true, if_false, List.cons.injEq] at h
      rw [← h.1]
      exact hx

/-- The string `multiply` builds from a non-negative accumulator is a digit
string the constructor accepts unchanged, unless it is `"0"`. -/
theorem multiplyArg_spec {result : List Int} (hr : ∀ r ∈ result, 0 ≤ r) :
    multiplyArg result ≠ [] ∧ (multiplyArg result).all isdigit = true ∧
    ((result.dropWhile (fun r => r == 0)).isEmpty = false →
      (multiplyArg result).head? ≠ some '0') := by
  unfold multiplyArg
  cases hrest : result.dropWhile (fun r => r == 0) with
  | nil =>
    simp only [List.isEmpty_nil, if_true]
    exact ⟨by simp, by decide, fun h => by cases h⟩
  | cons r rs =>
    have hsub : ∀ x ∈ r :: rs, 0 ≤ x := by
      intro x hx
      rw [← hrest] at hx
      exact hr x ((List.dropWhile_sublist _).subset hx)
    have hpos : 0 < r := by
      have h1 := dropWhile_zero_head result r rs hrest
      have h2 := hsub r (List.mem_cons_self r rs)
      omega
    have hh := concatDigits_head rs hpos
    simp only [List.isEmpty_cons, Bool.false_eq_true, if_false]
    exact ⟨hh.1, concatDigits_digits _ hsub, fun _ => hh.2⟩

/-- The multiplication on operands satisfying the invariant: its loops stay
inside the accumulator, the string it builds is accepted by the constructor,
and the product satisfies the invariant. -/
theorem multiply_spec {a b : BigInt} (ha : Inv a) (hb : Inv b) :
    ∃ result,
      outerLoop a.number b.number a.number.length
        (List.replicate (a.number.length + b.number.length) 0) = .ok result ∧
      IsSignedDigits (multiplyArg result) ∧
      ∃ p, BigInt.ofString (multiplyArg result) = .ok p ∧
        ∃ r, a.multiply b = .ok r ∧ r.number = p.number ∧ Inv r := by
  obtain ⟨a1, a2, _, _⟩ := ha
  obtain ⟨b1, b2, _, _⟩ := hb
  obtain ⟨result, h1, _, h3⟩ := outerLoop_ok a.number b.number a2 b2 a.number.length
    (List.replicate (a.number.length + b.number.length) 0) (le_refl _) (by simp)
    (by
      intro r hr
      rw [(List.mem_replicate.mp hr).2])
  obtain ⟨m1, m2, m3⟩ := multiplyArg_spec h3
  have hdec := ofString_decimal (Or.inl rfl) m1 m2
  rw [List.nil_append] at hdec
  have hn : ¬ (a.number.length = 0 ∨ b.number.length = 0) := by
    have := List.length_pos.mpr a1
    have := List.length_pos.mpr b1
    omega
  refine ⟨result, h1, isSignedDigits_plain ⟨m1, m2⟩, ?_⟩
  unfold BigInt.multiply
  simp only [hn, if_false, h1]
  by_cases he : (result.dropWhile (fun r => r == 0)).isEmpty = true
  · have harg : multiplyArg result = ['0'] := by simp [multiplyArg, he]
    simp only [he, if_true, harg]
    exact ⟨_, rfl, _, rfl, rfl, by decide⟩
  · have he2 : (result.dropWhile (fun r => r == 0)).isEmpty = false := by simpa using he
    have harg : multiplyArg result = concatDigits (result.dropWhile (fun r => r == 0)) := by
      simp [multiplyArg, he2]
    have hhead := m3 he2
    have hstrip := stripLeadingZeros_of_head hhead
    rw [hstrip] at hdec
    simp only [m1, if_false] at hdec
    simp only [he, if_false, ← harg, hdec]
    refine ⟨_, rfl, _, rfl, rfl, ?_⟩
    have hlast : (multiplyArg result).reverse.getLast? ≠ some '0' := by
      rw [List.getLast?_reverse]
      exact hhead
    refine ⟨by simpa using m1, by simpa using m2, fun h => absurd h hlast, ?_⟩
    intro h
    exfalso
    apply hlast
    dsimp only at h
    rw [h]
    rfl

/-! ## Invariant and totality -/

theorem neg_inv {a : BigInt} (ha : Inv a) : Inv a.neg := by
  obtain ⟨a1, a2, a3, a4⟩ := ha
  unfold BigInt.neg
  by_cases h : a.number = ['0']
  · have : (a.number != ['0']) = false := by simp [h]
    simp only [this, Bool.false_eq_true, if_false]
    exact ⟨a1, a2, a3, a4⟩
  · have : (a.number != ['0']) = true := by simpa using h
    simp only [this, if_true]
    exact ⟨a1, a2, a3, fun h0 => absurd h0 h⟩

theorem magnitude_zero_iff {x : BigInt} (hx : Inv x) :
    magnitude x.number = 0 ↔ x.number = ['0'] := by
  obtain ⟨x1, x2, x3, _⟩ := hx
  constructor
  · intro h
    by_contra hne
    have := inv_pos_of_ne_zero x1 x2 x3 hne
    omega
  · intro h
    rw [h]
    rfl

/-- Claim C9: the representation invariant (digit characters only; non-empty,
with no zero at the most significant end unless the number is the single
digit `0`; not negative when the magnitude is zero) holds for the default
constructor, for the constructor from a 64-bit integer, for every text the
string constructor accepts, and for the results of `+`, `-`, `*` and unary
`-` on operands that satisfy it; these operations do return a result. -/
theorem invariant_established_and_preserved :
    Inv BigInt.default ∧
    (∀ n : Int, INT64_MIN ≤ n → n ≤ INT64_MAX → Inv (BigInt.ofInt64 n)) ∧
    (∀ s r, BigInt.ofString s = .ok r → Inv r) ∧
    (∀ a b : BigInt, Inv a → Inv b →
      (∃ r, a.add b = .ok r ∧ Inv r) ∧
      (∃ r, a.subtract b = .ok r ∧ Inv r) ∧
      (∃ r, a.multiply b = .ok r ∧ Inv r)) ∧
    (∀ a : BigInt, Inv a → Inv a.neg) ∧
    (∀ x : BigInt, Inv x →
      (magnitude x.number = 0 ↔ x.number = ['0']) ∧
      (magnitude x.number = 0 → x.is_negative = false)) := by
  refine ⟨by decide, fun n _ _ => ofInt64_inv n, fun s r h => ofString_inv h, ?_,
    fun a ha => neg_inv ha, ?_⟩
  · intro a b ha hb
    refine ⟨?_, ?_, ?_⟩
    · rw [add_eq_addArg]
      exact ofString_signed (addArg_signed ha hb)
    · rw [subtract_eq_subtractArg]
      exact ofString_signed (subtractArg_signed ha hb)
    · obtain ⟨_, _, _, _, _, r, h1, _, h2⟩ := multiply_spec ha hb
      exact ⟨r, h1, h2⟩
  · intro x hx
    exact ⟨magnitude_zero_iff hx, fun h => hx.2.2.2 ((magnitude_zero_iff hx).mp h)⟩

theorem invariant_established_and_preserved_witness :
    Inv (BigInt.ofInt64 (-7)) ∧
    Inv ⟨['2', '1'], true⟩ ∧
    ((∃ r, (⟨['2', '1'], false⟩ : BigInt).add ⟨['3'], true⟩ = .ok r ∧ Inv r) ∧
     (∃ r, (⟨['2', '1'], false⟩ : BigInt).subtract ⟨['3'], true⟩ = .ok r ∧ Inv r) ∧
     (∃ r, (⟨['2', '1'], false⟩ : BigInt).multiply ⟨['3'], true⟩ = .ok r ∧ Inv r)) ∧
    Inv (BigInt.neg ⟨['3'], true⟩) :=
  ⟨invariant_established_and_preserved.2.1 (-7) (by decide) (by decide),
   invariant_established_and_preserved.2.2.1 "-12".toList ⟨['2', '1'], true⟩ rfl,
   invariant_established_and_preserved.2.2.2.1 ⟨['2', '1'], false⟩ ⟨['3'], true⟩
     (by decide) (by decide),
   invariant_established_and_preserved.2.2.2.2.1 ⟨['3'], true⟩ (by decide)⟩

/-- Claim C10, arithmetic is total: on operands satisfying the invariant, `+`,
`-` and `*` return a result.  The string each of them hands to the string
constructor is an optional `-` followed by one or more decimal digits, and
the loops of `multiply` finish without an index leaving the digit
sequences or the accumulator. -/
theorem arithmetic_total (a b : BigInt) (ha : Inv a) (hb : Inv b) :
    (a.add b = BigInt.ofString (addArg a b) ∧ IsSignedDigits (addArg a b) ∧
      ∃ r, a.add b = .ok r) ∧
    (a.subtract b = BigInt.ofString (subtractArg a b) ∧ IsSignedDigits (subtractArg a b) ∧
      ∃ r, a.subtract b = .ok r) ∧
    (∃ result,
      outerLoop a.number b.number a.number.length
        (List.replicate (a.number.length + b.number.length) 0) = .ok result ∧
      IsSignedDigits (multiplyArg result) ∧
      ∃ p, BigInt.ofString (multiplyArg result) = .ok p ∧
        ∃ r, a.multiply b = .ok r ∧ r.number = p.number) := by
  refine ⟨⟨add_eq_addArg a b, addArg_signed ha hb, ?_⟩,
    ⟨subtract_eq_subtractArg a b, subtractArg_signed ha hb, ?_⟩, ?_⟩
  · obtain ⟨r, h, _⟩ := ofString_signed (addArg_signed ha hb)
    exact ⟨r, by rw [add_eq_addArg]; exact h⟩
  · obtain ⟨r, h, _⟩ := ofString_signed (subtractArg_signed ha hb)
    exact ⟨r, by rw [subtract_eq_subtractArg]; exact h⟩
  · obtain ⟨result, h1, h2, p, h3, r, h4, h5, _⟩ := multiply_spec ha hb
    exact ⟨result, h1, h2, p, h3, r, h4, h5⟩

theorem arithmetic_total_witness :
    ((⟨['9', '9'], true⟩ : BigInt).add ⟨['7'], false⟩
        = BigInt.ofString (addArg ⟨['9', '9'], true⟩ ⟨['7'], false⟩) ∧
      IsSignedDigits (addArg ⟨['9', '9'], true⟩ ⟨['7'], false⟩) ∧
      ∃ r, (⟨['9', '9'], true⟩ : BigInt).add ⟨['7'], false⟩ = .ok r) ∧
    ((⟨['9', '9'], true⟩ : BigInt).subtract ⟨['7'], false⟩
        = BigInt.ofString (subtractArg ⟨['9', '9'], true⟩ ⟨['7'], false⟩) ∧
      IsSignedDigits (subtractArg ⟨['9', '9'], true⟩ ⟨['7'], false⟩) ∧
      ∃ r, (⟨['9', '9'], true⟩ : BigInt).subtract ⟨['7'], false⟩ = .ok r) ∧
    (∃ result,
      outerLoop ['9', '9'] ['7'] 2 (List.replicate (2 + 1) 0) = .ok result ∧
      IsSignedDigits (multiplyArg result) ∧
      ∃ p, BigInt.ofString (multiplyArg result) = .ok p ∧
        ∃ r, (⟨['9', '9'], true⟩ : BigInt).multiply ⟨['7'], false⟩ = .ok r ∧
          r.number = p.number) :=
  arithmetic_total ⟨['9', '9'], true⟩ ⟨['7'], false⟩ (by decide) (by decide)

/-! ## The arithmetic at concrete operands -/

/-- Claim C1, a defect of the code, shown at `12 + 3`: both operands are built
by the string constructor and satisfy the invariant, `addStrings` is applied to the stored
sequences `"21"` and `"3"` and returns `"24"`, and the sum denotes 24
instead of 15. -/
theorem add_12_3 :
    BigInt.ofString "12".toList = .ok ⟨['2', '1'], false⟩ ∧
    BigInt.ofString "3".toList = .ok ⟨['3'], false⟩ ∧
    Inv ⟨['2', '1'], false⟩ ∧ Inv ⟨['3'], false⟩ ∧
    value ⟨['2', '1'], false⟩ = 12 ∧ value ⟨['3'], false⟩ = 3 ∧
    addStrings ['2', '1'] ['3'] = ['2', '4'] ∧
    BigInt.add ⟨['2', '1'], false⟩ ⟨['3'], false⟩ = .ok ⟨['4', '2'], false⟩ ∧
    value ⟨['4', '2'], false⟩ = 24 ∧
    render ⟨['4', '2'], false⟩ = "24".toList ∧
    value ⟨['4', '2'], false⟩ ≠ value ⟨['2', '1'], false⟩ + value ⟨['3'], false⟩ := by
  refine ⟨rfl, rfl, by decide, by decide, by decide, by decide, rfl, rfl, by decide, rfl,
    by decide⟩

/-- Claim C2, a defect of the code, shown at `2 * 5` and `12 * 1`: the operands
satisfy the invariant; the accumulator of `2 * 5` ends as `[0, 1]` (the carry of the row
is added to the cell the row has just written) and the product denotes 1
instead of 10; the product `12 * 1` denotes 21 instead of 12. -/
theorem multiply_2_5_and_12_1 :
    Inv ⟨['2'], false⟩ ∧ Inv ⟨['5'], false⟩ ∧ Inv ⟨['2', '1'], false⟩ ∧ Inv ⟨['1'], false⟩ ∧
    value ⟨['2'], false⟩ = 2 ∧ value ⟨['5'], false⟩ = 5 ∧
    outerLoop ['2'] ['5'] 1 (List.replicate 2 0) = .ok [0, 1] ∧
    BigInt.multiply ⟨['2'], false⟩ ⟨['5'], false⟩ = .ok ⟨['1'], false⟩ ∧
    value ⟨['1'], false⟩ = 1 ∧
    value ⟨['2', '1'], false⟩ = 12 ∧
    BigInt.multiply ⟨['2', '1'], false⟩ ⟨['1'], false⟩ = .ok ⟨['1', '2'], false⟩ ∧
    value ⟨['1', '2'], false⟩ = 21 ∧
    value ⟨['1'], false⟩ ≠ value ⟨['2'], false⟩ * value ⟨['5'], false⟩ ∧
    value ⟨['1', '2'], false⟩ ≠ value ⟨['2', '1'], false⟩ * value ⟨['1'], false⟩ := by
  refine ⟨by decide, by decide, by decide, by decide, by decide, by decide, rfl, rfl,
    by decide, by decide, rfl, by decide, by decide, by decide⟩

/-- Claim C3, a defect of the code, shown at `10 - 1`: the operands satisfy the
invariant, `isSmaller` finds `|10| ≥ |1|`, `subtractStrings` is applied to the stored
sequences `"01"` and `"1"` and returns `"0"`, and the difference denotes 0
instead of 9. -/
theorem subtract_10_1 :
    BigInt.ofString "10".toList = .ok ⟨['0', '1'], false⟩ ∧
    BigInt.ofString "1".toList = .ok ⟨['1'], false⟩ ∧
    Inv ⟨['0', '1'], false⟩ ∧ Inv ⟨['1'], false⟩ ∧
    value ⟨['0', '1'], false⟩ = 10 ∧ value ⟨['1'], false⟩ = 1 ∧
    isSmaller ['0', '1'] ['1'] = false ∧
    subtractStrings ['0', '1'] ['1'] = ['0'] ∧
    BigInt.subtract ⟨['0', '1'], false⟩ ⟨['1'], false⟩ = .ok ⟨['0'], false⟩ ∧
    value ⟨['0'], false⟩ = 0 ∧
    value ⟨['0'], false⟩ ≠ value ⟨['0', '1'], false⟩ - value ⟨['1'], false⟩ := by
  refine ⟨rfl, rfl, by decide, by decide, by decide, by decide, rfl, rfl, rfl, by decide,
    by decide⟩

/-! ## Algebraic relations of addition and subtraction -/

theorem addLoop_comm : ∀ (xs ys : List Char) (carry : Int),
    addLoop xs ys carry = addLoop ys xs carry := by
  intro xs
  induction xs with
  | nil =>
    intro ys carry
    cases ys <;> rfl
  | cons x xs ih =>
    intro ys carry
    cases ys with
    | nil => rfl
    | cons y ys =>
      have hs : carry + digitVal x + digitVal y = carry + digitVal y + digitVal x := by ring
      simp only [addLoop, hs, ih ys]

theorem addStrings_comm (num1 num2 : List Char) :
    addStrings num1 num2 = addStrings num2 num1 := by
  unfold addStrings
  rw [addLoop_comm]

/-- The two orders of the operands of `add` reach the same constructor call. -/
theorem add_comm_eq (a b : BigInt) : a.add b = b.add a := by
  unfold BigInt.add
  rw [addStrings_comm b.number a.number]
  cases a.is_negative <;> cases b.is_negative <;> rfl

theorem eq_self (r : BigInt) : r.eq r = true := by
  simp [BigInt.eq]

theorem firstDiff_self : ∀ l : List Char, firstDiff l l = none := by
  intro l
  induction l with
  | nil => rfl
  | cons x xs ih => simp [firstDiff, ih]

theorem isSmaller_self (l : List Char) : isSmaller l l = false := by
  simp [isSmaller, firstDiff_self]

theorem subStep_self (d : Int) : subStep d d 0 = ('0', 0) := by
  have h : ¬ (d - d - 0 < 0) := by omega
  have h2 : d - d - 0 = 0 := by omega
  simp only [subStep, h, if_false, h2]
  rfl

theorem subLoop_self : ∀ l : List Char, subLoop l l 0 = List.replicate l.length '0' := by
  intro l
  induction l with
  | nil => rfl
  | cons x xs ih =>
    simp only [subLoop, subStep_self, ih, List.length_cons, List.replicate_succ]

theorem stripFront_zeros : ∀ k : Nat, stripFront (List.replicate (k + 1) '0') = ['0'] := by
  intro k
  induction k with
  | zero => rfl
  | succ k ih =>
    rw [List.replicate_succ, List.replicate_succ]
    simp only [stripFront, beq_self_eq_true, if_true]
    rw [← List.replicate_succ]
    exact ih

/-- Subtracting a magnitude from itself gives the single digit `0`. -/
theorem subtractStrings_self {l : List Char} (h : l ≠ []) : subtractStrings l l = ['0'] := by
  unfold subtractStrings
  rw [subLoop_self, List.reverse_replicate, List.length_reverse]
  obtain ⟨k, hk⟩ : ∃ k, l.length = k + 1 := by
    have := List.length_pos.mpr h
    exact ⟨l.length - 1, by omega⟩
  rw [hk]
  exact stripFront_zeros k

theorem digitChar_digitVal {c : Char} (h : isdigit c = true) : digitChar (digitVal c) = c := by
  have hc := (isdigit_iff c).mp h
  unfold digitChar digitVal
  have e : ((c.toNat : Int) - 48 + 48).toNat = c.toNat := by omega
  rw [e]
  exact Char.ofNat_toNat c

theorem addTail_zero : ∀ xs : List Char, xs.all isdigit = true → addTail xs 0 = xs := by
  intro xs
  induction xs with
  | nil => intro _; rfl
  | cons x xs ih =>
    intro h
    simp only [List.all_cons, Bool.and_eq_true] at h
    have hv := digitVal_bounds h.1
    have e1 : (0 + digitVal x).tmod 10 = digitVal x := by
      rw [Int.tmod_eq_emod (by omega) (by decide)]
      omega
    have e2 : (0 + digitVal x).tdiv 10 = 0 := by
      rw [Int.tdiv_eq_ediv (by omega) (by decide)]
      omega
    simp only [addTail, e1, e2, digitChar_digitVal h.1, ih h.2]

/-- Adding the stored zero `"0"` with `addStrings` returns the other string. -/
theorem addStrings_zero {l : List Char} (hne : l ≠ []) (h : l.all isdigit = true) :
    addStrings l ['0'] = l := by
  unfold addStrings
  have hr : l.reverse.all isdigit = true := by simpa using h
  cases hl : l.reverse with
  | nil => exact absurd (by simpa using hl) hne
  | cons x xs =>
    rw [hl] at hr
    simp only [List.all_cons, Bool.and_eq_true] at hr
    have hv := digitVal_bounds hr.1
    have hz : digitVal '0' = 0 := rfl
    have e1 : (0 + digitVal x + 0).tmod 10 = digitVal x := by
      rw [Int.tmod_eq_emod (by omega) (by decide)]
      omega
    have e2 : (0 + digitVal x + 0).tdiv 10 = 0 := by
      rw [Int.tdiv_eq_ediv (by omega) (by decide)]
      omega
    have ht : addLoop xs [] 0 = xs := by
      cases xs with
      | nil => rfl
      | cons y ys => exact addTail_zero (y :: ys) hr.2
    have : addLoop (x :: xs) ['0'] 0 = x :: xs := by
      simp only [List.reverse_cons, List.reverse_nil, List.nil_append, addLoop, hz, e1, e2,
        digitChar_digitVal hr.1, ht]
    simp only [List.reverse_cons, List.reverse_nil, List.nil_append]
    rw [this, ← hl, List.reverse_reverse]

theorem subStep_zero {c : Char} (h : isdigit c = true) : subStep (digitVal c) 0 0 = (c, 0) := by
  have hv := digitVal_bounds h
  have h1 : ¬ (digitVal c < 0) := by omega
  simp [subStep, h1, digitChar_digitVal h]

theorem subTail1_zero : ∀ xs : List Char, xs.all isdigit = true → subTail1 xs 0 = xs := by
  intro xs
  induction xs with
  | nil => intro _; rfl
  | cons x xs ih =>
    intro h
    simp only [List.all_cons, Bool.and_eq_true] at h
    simp only [subTail1, subStep_zero h.1, ih h.2]

/-- Subtracting the stored zero `"0"` with `subtractStrings` returns the other
string up to the zeros removed by the final loop. -/
theorem subtractStrings_zero {l : List Char} (hne : l ≠ []) (h : l.all isdigit = true) :
    subtractStrings l ['0'] = stripFront l := by
  unfold subtractStrings
  have hr : l.reverse.all isdigit = true := by simpa using h
  cases hl : l.reverse with
  | nil => exact absurd (by simpa using hl) hne
  | cons x xs =>
    rw [hl] at hr
    simp only [List.all_cons, Bool.and_eq_true] at hr
    have hz : digitVal '0' = 0 := rfl
    have ht : subLoop xs [] 0 = xs := by
      cases xs with
      | nil => rfl
      | cons y ys => exact subTail1_zero (y :: ys) hr.2
    have : subLoop (x :: xs) ['0'] 0 = x :: xs := by
      simp only [List.reverse_cons, List.reverse_nil, List.nil_append, subLoop, hz,
        subStep_zero hr.1, ht]
    simp only [List.reverse_cons, List.reverse_nil, List.nil_append]
    rw [this, ← hl, List.reverse_reverse]

theorem strip_stripFront : ∀ l : List Char,
    stripLeadingZeros (stripFront l) = stripLeadingZeros l := by
  intro l
  induction l with
  | nil => rfl
  | cons c cs ih =>
    cases cs with
    | nil => rfl
    | cons d ds =>
      by_cases hc : c = '0'
      · subst hc
        simp only [stripFront, beq_self_eq_true, if_true, ih]
        simp [stripLeadingZeros]
      · have : (c == '0') = false := by simpa using hc
        simp only [stripFront, this, Bool.false_eq_true, if_false]

/-- The string constructor does not see the zeros `stripFront` removes. -/
theorem ofString_stripFront {l : List Char} (hne : l ≠ []) (h : l.all isdigit = true) :
    BigInt.ofString (stripFront l) = BigInt.ofString l ∧
    BigInt.ofString ('-' :: stripFront l) = BigInt.ofString ('-' :: l) := by
  obtain ⟨s1, s2⟩ := stripFront_spec l hne h
  constructor
  · have e1 := ofString_decimal (Or.inl rfl) s1 s2
    have e2 := ofString_decimal (Or.inl rfl) hne h
    rw [List.nil_append] at e1 e2
    rw [e1, e2, strip_stripFront]
  · have e1 := ofString_decimal (Or.inr (Or.inr rfl)) s1 s2
    have e2 := ofString_decimal (Or.inr (Or.inr rfl)) hne h
    rw [List.singleton_append] at e1 e2
    rw [e1, e2, strip_stripFront]

theorem isSmaller_zero_right {l : List Char} (hne : l ≠ []) (h : l.all isdigit = true)
    (hl : l.getLast? = some '0' → l = ['0']) : isSmaller l ['0'] = false := by
  have := isSmaller_iff hne h hl (by simp : (['0'] : List Char) ≠ []) (by decide)
    (fun _ => rfl)
  have hm : magnitude ['0'] = 0 := rfl
  rw [hm] at this
  cases hs : isSmaller l ['0'] with
  | false => rfl
  | true =>
    have := this.mp hs
    omega

/-- The subtraction and the addition of the negated operand reach constructor
calls with the same result. -/
theorem subtract_eq_add_neg {a b : BigInt} (ha : Inv a) (hb : Inv b) :
    a.subtract b = a.add b.neg := by
  obtain ⟨a1, a2, a3, a4⟩ := ha
  obtain ⟨b1, b2, b3, b4⟩ := hb
  cases a with
  | mk an as =>
    cases b with
    | mk bn bs =>
      simp only at a1 a2 a3 a4 b1 b2 b3 b4
      by_cases hz : bn = ['0']
      · subst hz
        have hbs : bs = false := b4 rfl
        subst hbs
        have hsm := isSmaller_zero_right a1 a2 a3
        have hadd := addStrings_zero a1 a2
        have hsub := subtractStrings_zero a1 a2
        have hof := ofString_stripFront a1 a2
        have hneg : BigInt.neg ⟨['0'], false⟩ = ⟨['0'], false⟩ := rfl
        rw [hneg]
        cases as
        · simp [BigInt.subtract, BigInt.add, hsm, hadd, hsub, hof.1]
        · simp [BigInt.subtract, BigInt.add, hsm, hadd, hsub, hof.2]
      · have hneg : BigInt.neg ⟨bn, bs⟩ = ⟨bn, !bs⟩ := by
          have : (bn != ['0']) = true := by simpa using hz
          simp [BigInt.neg, this]
        rw [hneg]
        cases as <;> cases bs
        · have sab := isSmaller_iff a1 a2 a3 b1 b2 b3
          have sba := isSmaller_iff b1 b2 b3 a1 a2 a3
          cases h1 : isSmaller an bn <;> cases h2 : isSmaller bn an
          · have e1 : ¬ magnitude an < magnitude bn := fun h => by
              rw [sab.mpr h] at h1
              cases h1
            have e2 : ¬ magnitude bn < magnitude an := fun h => by
              rw [sba.mpr h] at h2
              cases h2
            have he := magnitude_injective a1 a2 a3 b1 b2 b3 (by omega)
            subst he
            simp only [BigInt.subtract, BigInt.add, h1, subtractStrings_self a1]
            rfl
          · simp [BigInt.subtract, BigInt.add, h1, h2]
          · simp [BigInt.subtract, BigInt.add, h1, h2]
          · have := sab.mp h1
            have := sba.mp h2
            omega
        · simp [BigInt.subtract, BigInt.add]
        · simp [BigInt.subtract, BigInt.add]
        · simp [BigInt.subtract, BigInt.add]

/-- A `BigInt` plus its negation, in closed form. -/
theorem add_neg_self {a : BigInt} (ha : Inv a) : a.add a.neg = .ok BigInt.default := by
  obtain ⟨a1, _, _, a4⟩ := ha
  cases a with
  | mk an as =>
    simp only at a1 a4
    by_cases hz : an = ['0']
    · subst hz
      have has : as = false := a4 rfl
      subst has
      rfl
    · have hneg : BigInt.neg ⟨an, as⟩ = ⟨an, !as⟩ := by
        have : (an != ['0']) = true := by simpa using hz
        simp [BigInt.neg, this]
      rw [hneg]
      cases as
      · simp only [BigInt.add, isSmaller_self, subtractStrings_self a1]
        rfl
      · simp only [BigInt.add, isSmaller_self, subtractStrings_self a1]
        rfl

/-- Claim C11, subtraction consistency: on operands satisfying the invariant
`a - b` and `a + (-b)` both return a result and the two results are equal
by `operator==` (the cases `b = 0` and `|a| = |b|` included). -/
theorem subtraction_consistency (a b : BigInt) (ha : Inv a) (hb : Inv b) :
    ∃ r1 r2, a.subtract b = .ok r1 ∧ a.add b.neg = .ok r2 ∧ r1.eq r2 = true := by
  obtain ⟨r, h, _⟩ := ofString_signed (subtractArg_signed ha hb)
  rw [← subtract_eq_subtractArg] at h
  exact ⟨r, r, h, by rw [← subtract_eq_add_neg ha hb]; exact h, eq_self r⟩

theorem subtraction_consistency_witness :
    ∃ r1 r2, (⟨['2', '1'], false⟩ : BigInt).subtract ⟨['0'], false⟩ = .ok r1 ∧
      (⟨['2', '1'], false⟩ : BigInt).add (BigInt.neg ⟨['0'], false⟩) = .ok r2 ∧
      r1.eq r2 = true :=
  subtraction_consistency ⟨['2', '1'], false⟩ ⟨['0'], false⟩ (by decide) (by decide)

/-- Claim C12, additive inverse: for every `a` satisfying the invariant
`a + (-a)` is the value of the default constructor, the single digit `0`
with `is_negative = false`. -/
theorem additive_inverse (a : BigInt) (ha : Inv a) :
    a.add a.neg = .ok BigInt.default ∧ BigInt.default = ⟨['0'], false⟩ :=
  ⟨add_neg_self ha, rfl⟩

theorem additive_inverse_witness :
    (⟨['2', '1'], true⟩ : BigInt).add (BigInt.neg ⟨['2', '1'], true⟩) = .ok BigInt.default ∧
    BigInt.default = ⟨['0'], false⟩ :=
  additive_inverse ⟨['2', '1'], true⟩ (by decide)

/-- Claim C13, addition is commutative: on operands satisfying the invariant
`a + b` and `b + a` both return a result and the two results are equal by
`operator==`, whatever the signs of the operands. -/
theorem addition_commutative (a b : BigInt) (ha : Inv a) (hb : Inv b) :
    ∃ r1 r2, a.add b = .ok r1 ∧ b.add a = .ok r2 ∧ r1.eq r2 = true := by
  obtain ⟨r, h, _⟩ := ofString_signed (addArg_signed ha hb)
  rw [← add_eq_addArg] at h
  exact ⟨r, r, h, by rw [← add_comm_eq a b]; exact h, eq_self r⟩

theorem addition_commutative_witness :
    ∃ r1 r2, (⟨['2', '1'], true⟩ : BigInt).add ⟨['3'], false⟩ = .ok r1 ∧
      (⟨['3'], false⟩ : BigInt).add ⟨['2', '1'], true⟩ = .ok r2 ∧ r1.eq r2 = true :=
  addition_commutative ⟨['2', '1'], true⟩ ⟨['3'], false⟩ (by decide) (by decide)

/-! ## Ordering -/

/-- The operator `<` decides the order of the denoted integers. -/
theorem lt_iff_value_lt {x y : BigInt} (hx : Inv x) (hy : Inv y) :
    x.lt y = true ↔ value x < value y := by
  obtain ⟨x1, x2, x3, x4⟩ := hx
  obtain ⟨y1, y2, y3, y4⟩ := hy
  rw [lt_eq_isSmaller]
  have sxy := isSmaller_iff x1 x2 x3 y1 y2 y3
  have syx := isSmaller_iff y1 y2 y3 x1 x2 x3
  have px : x.is_negative = true → 0 < magnitude x.number := fun hs =>
    inv_pos_of_ne_zero x1 x2 x3 (fun h0 => by rw [x4 h0] at hs; cases hs)
  have py : y.is_negative = true → 0 < magnitude y.number := fun hs =>
    inv_pos_of_ne_zero y1 y2 y3 (fun h0 => by rw [y4 h0] at hs; cases hs)
  unfold value
  cases hxs : x.is_negative <;> cases hys : y.is_negative
  · simp only [bne_self_eq_false, Bool.false_eq_true, if_false]
    rw [sxy]
    omega
  · have := py hys
    simp only [Bool.false_eq_true, if_false, if_true]
    constructor
    · intro h
      simp at h
    · intro h
      omega
  · have := px hxs
    simp only [Bool.false_eq_true, if_false, if_true]
    constructor
    · intro _
      omega
    · intro _
      simp
  · simp only [bne_self_eq_false, Bool.false_eq_true, if_false, if_true]
    rw [syx]
    omega

/-- The operator `==` decides the equality of the denoted integers. -/
theorem eq_iff_value_eq {a b : BigInt} (ha : Inv a) (hb : Inv b) :
    a.eq b = true ↔ value a = value b := by
  rw [value_eq_iff ha hb]
  cases a
  cases b
  simp [BigInt.eq]

/-- Claim C18, ordering trichotomy: on operands satisfying the invariant
exactly one of `a < b`, `a == b`, `a > b` is true, where `a > b` is
`b < a`. -/
theorem ordering_trichotomy (a b : BigInt) (ha : Inv a) (hb : Inv b) :
    a.gt b = b.lt a ∧
    ((a.lt b = true ∧ a.eq b = false ∧ a.gt b = false) ∨
     (a.lt b = false ∧ a.eq b = true ∧ a.gt b = false) ∨
     (a.lt b = false ∧ a.eq b = false ∧ a.gt b = true)) := by
  refine ⟨rfl, ?_⟩
  have h1 := lt_iff_value_lt ha hb
  have h2 := lt_iff_value_lt hb ha
  have h3 := eq_iff_value_eq ha hb
  unfold BigInt.gt
  rcases lt_trichotomy (value a) (value b) with h | h | h
  · left
    refine ⟨h1.mpr h, ?_, ?_⟩
    · cases he : a.eq b with
      | false => rfl
      | true =>
        have := h3.mp he
        omega
    · cases he : b.lt a with
      | false => rfl
      | true =>
        have := h2.mp he
        omega
  · right
    left
    refine ⟨?_, h3.mpr h, ?_⟩
    · cases he : a.lt b with
      | false => rfl
      | true =>
        have := h1.mp he
        omega
    · cases he : b.lt a with
      | false => rfl
      | true =>
        have := h2.mp he
        omega
  · right
    right
    refine ⟨?_, ?_, h2.mpr h⟩
    · cases he : a.lt b with
      | false => rfl
      | true =>
        have := h1.mp he
        omega
    · cases he : a.eq b with
      | false => rfl
      | true =>
        have := h3.mp he
        omega

theorem ordering_trichotomy_witness :
    (⟨['2', '1'], true⟩ : BigInt).gt ⟨['3'], true⟩
      = (⟨['3'], true⟩ : BigInt).lt ⟨['2', '1'], true⟩ ∧
    (((⟨['2', '1'], true⟩ : BigInt).lt ⟨['3'], true⟩ = true ∧
      (⟨['2', '1'], true⟩ : BigInt).eq ⟨['3'], true⟩ = false ∧
      (⟨['2', '1'], true⟩ : BigInt).gt ⟨['3'], true⟩ = false) ∨
     ((⟨['2', '1'], true⟩ : BigInt).lt ⟨['3'], true⟩ = false ∧
      (⟨['2', '1'], true⟩ : BigInt).eq ⟨['3'], true⟩ = true ∧
      (⟨['2', '1'], true⟩ : BigInt).gt ⟨['3'], true⟩ = false) ∨
     ((⟨['2', '1'], true⟩ : BigInt).lt ⟨['3'], true⟩ = false ∧
      (⟨['2', '1'], true⟩ : BigInt).eq ⟨['3'], true⟩ = false ∧
      (⟨['2', '1'], true⟩ : BigInt).gt ⟨['3'], true⟩ = true)) :=
  ordering_trichotomy ⟨['2', '1'], true⟩ ⟨['3'], true⟩ (by decide) (by decide)

/-! ## Multiplication by zero and the sign of a product -/

theorem innerLoop_zero (n1_digit : Int) (other : List Char) (i n : Nat)
    (hz : ∀ c ∈ other, n1_digit * digitVal c = 0) :
    ∀ j : Nat, j ≤ other.length → i + other.length < n →
      innerLoop n1_digit other i j (List.replicate n 0) 0 = .ok (List.replicate n 0, 0) := by
  intro j
  induction j with
  | zero => intro _ _; rfl
  | succ j ih =>
    intro hj hn
    have hj1 : j < other.length := by omega
    have e1 : other[j]? = some other[j] := List.getElem?_eq_getElem hj1
    have e2 : (List.replicate n (0 : Int))[i + j + 1]? = some 0 :=
      List.getElem?_replicate_of_lt (by omega)
    have hp : n1_digit * digitVal other[j] = 0 := hz _ (List.getElem?_mem e1)
    have hs : n1_digit * digitVal other[j] + 0 + 0 = 0 := by omega
    simp only [innerLoop, e1, e2, hs]
    have t1 : (0 : Int).tmod 10 = 0 := rfl
    have t2 : (0 : Int).tdiv 10 = 0 := rfl
    rw [t1, t2, List.set_replicate_self]
    exact ih (by omega) hn

theorem outerLoop_zero (number other : List Char)
    (hz : ∀ c ∈ number, ∀ d ∈ other, digitVal c * digitVal d = 0) :
    ∀ i : Nat, i ≤ number.length →
      outerLoop number other i (List.replicate (number.length + other.length) 0)
        = .ok (List.replicate (number.length + other.length) 0) := by
  intro i
  induction i with
  | zero => intro _; rfl
  | succ i ih =>
    intro hi
    have hi1 : i < number.length := by omega
    have e1 : number[i]? = some number[i] := List.getElem?_eq_getElem hi1
    have hin := innerLoop_zero (digitVal number[i]) other i (number.length + other.length)
      (hz _ (List.getElem?_mem e1)) other.length (le_refl _) (by omega)
    have e2 : (List.replicate (number.length + other.length) (0 : Int))[i + other.length]?
        = some 0 := List.getElem?_replicate_of_lt (by omega)
    have h0 : (0 : Int) + 0 = 0 := rfl
    simp only [outerLoop, e1, hin, e2, h0, List.set_replicate_self]
    exact ih (by omega)

theorem dropWhile_zero_replicate (n : Nat) :
    (List.replicate n (0 : Int)).dropWhile (fun r => r == 0) = [] := by
  induction n with
  | zero => rfl
  | succ n ih => simp [List.replicate_succ, List.dropWhile_cons, ih]

/-- A product one of whose operands is stored as `"0"` is the value of the
default constructor. -/
theorem multiply_zero {a b : BigInt} (ha : a.number ≠ []) (hb : b.number ≠ [])
    (hz : a.number = ['0'] ∨ b.number = ['0']) : a.multiply b = .ok BigInt.default := by
  have hprod : ∀ c ∈ a.number, ∀ d ∈ b.number, digitVal c * digitVal d = 0 := by
    intro c hc d hd
    have h0 : digitVal '0' = 0 := rfl
    rcases hz with h | h
    · rw [h] at hc
      rw [List.mem_singleton.mp hc, h0, Int.zero_mul]
    · rw [h] at hd
      rw [List.mem_singleton.mp hd, h0, Int.mul_zero]
  have hloop := outerLoop_zero a.number b.number hprod a.number.length (le_refl _)
  have hn : ¬ (a.number.length = 0 ∨ b.number.length = 0) := by
    have := List.length_pos.mpr ha
    have := List.length_pos.mpr hb
    omega
  unfold BigInt.multiply
  simp only [hn, if_false, hloop, dropWhile_zero_replicate, List.isEmpty_nil, if_true]
  rfl

theorem value_zero_iff {x : BigInt} (hx : Inv x) : value x = 0 ↔ x.number = ['0'] := by
  rw [← magnitude_zero_iff hx]
  unfold value
  split <;> omega

/-- Claim C17, multiplication by zero: for every `a` satisfying the invariant,
negative ones included, `a * 0` and `0 * a` are the canonical zero, the
single digit `0` with `is_negative = false`; the zero operand is any
`BigInt` satisfying the invariant that denotes zero. -/
theorem multiplication_by_zero (a z : BigInt) (ha : Inv a) (hzi : Inv z) (hz : value z = 0) :
    z = BigInt.default ∧
    a.multiply z = .ok ⟨['0'], false⟩ ∧ z.multiply a = .ok ⟨['0'], false⟩ := by
  have hnum := (value_zero_iff hzi).mp hz
  refine ⟨?_, multiply_zero ha.1 hzi.1 (Or.inr hnum), multiply_zero hzi.1 ha.1 (Or.inl hnum)⟩
  cases z with
  | mk zn zs =>
    have hs : zs = false := hzi.2.2.2 hnum
    simp only at hnum
    rw [hnum, hs]
    rfl

theorem multiplication_by_zero_witness :
    (⟨['0'], false⟩ : BigInt) = BigInt.default ∧
    (⟨['2', '1'], true⟩ : BigInt).multiply ⟨['0'], false⟩ = .ok ⟨['0'], false⟩ ∧
    (⟨['0'], false⟩ : BigInt).multiply ⟨['2', '1'], true⟩ = .ok ⟨['0'], false⟩ :=
  multiplication_by_zero ⟨['2', '1'], true⟩ ⟨['0'], false⟩ (by decide) (by decide) (by decide)

theorem pos_of_sum_pos {s : Int} (h : 0 < s) : 0 < s.tmod 10 ∨ 0 < s.tdiv 10 := by
  rw [Int.tmod_eq_emod (le_of_lt h) (by decide), Int.tdiv_eq_ediv (le_of_lt h) (by decide)]
  omega

/-- The inner loop of `multiply` keeps something positive: if the carry or a
cell is positive before, or the first product it adds is, then the carry or
a cell is positive after. -/
theorem innerLoop_pos (n1_digit : Int) (other : List Char) (i : Nat) (hn : 0 ≤ n1_digit)
    (ho : other.all isdigit = true) :
    ∀ (j : Nat) (result : List Int) (carry : Int), j ≤ other.length →
      i + other.length < result.length → (∀ r ∈ result, 0 ≤ r) → 0 ≤ carry →
      ((0 < carry ∨ ∃ (k : Nat) (r : Int), result[k]? = some r ∧ 0 < r) ∨
        (∃ c, 0 < j ∧ other[j - 1]? = some c ∧ 0 < n1_digit * digitVal c)) →
      ∀ result1 carry1, innerLoop n1_digit other i j result carry = .ok (result1, carry1) →
        (0 < carry1 ∨ ∃ (k : Nat) (r : Int), result1[k]? = some r ∧ 0 < r) := by
  intro j
  induction j with
  | zero =>
    intro result carry _ _ _ _ hpos result1 carry1 hrun
    simp only [innerLoop, Except.ok.injEq, Prod.mk.injEq] at hrun
    rw [← hrun.1, ← hrun.2]
    rcases hpos with h | ⟨c, h, _⟩
    · exact h
    · omega
  | succ j ih =>
    intro result carry hj hlen hr hc hpos result1 carry1 hrun
    have hj1 : j < other.length := by omega
    have hi1 : i + j + 1 < result.length := by omega
    have e1 : other[j]? = some other[j] := List.getElem?_eq_getElem hj1
    have e2 : result[i + j + 1]? = some result[i + j + 1] := List.getElem?_eq_getElem hi1
    have hd := digitVal_bounds (List.all_eq_true.mp ho _ (List.getElem?_mem e1))
    have hr0 : 0 ≤ result[i + j + 1] := hr _ (List.getElem?_mem e2)
    have hp0 : 0 ≤ n1_digit * digitVal other[j] := Int.mul_nonneg hn hd.1
    have hs : 0 ≤ n1_digit * digitVal other[j] + result[i + j + 1] + carry := by omega
    simp only [innerLoop, e1, e2] at hrun
    have hr2 : ∀ r ∈ result.set (i + j + 1)
        ((n1_digit * digitVal other[j] + result[i + j + 1] + carry).tmod 10), 0 ≤ r := by
      intro r hmem
      rcases List.mem_or_eq_of_mem_set hmem with h | h
      · exact hr r h
      · rw [h]
        exact (tmod_ten_bounds hs).1
    refine ih _ _ (by omega) (by rw [List.length_set]; exact hlen) hr2 (tdiv_ten_bounds hs).1
      (Or.inl ?_) result1 carry1 hrun
    have hsum : 0 < n1_digit * digitVal other[j] + result[i + j + 1] + carry →
        (0 < (n1_digit * digitVal other[j] + result[i + j + 1] + carry).tdiv 10 ∨
          ∃ (k : Nat) (r : Int), (result.set (i + j + 1)
            ((n1_digit * digitVal other[j] + result[i + j + 1] + carry).tmod 10))[k]?
              = some r ∧ 0 < r) := by
      intro h
      rcases pos_of_sum_pos h with h1 | h1
      · exact Or.inr ⟨i + j + 1, _, List.getElem?_set_self hi1, h1⟩
      · exact Or.inl h1
    rcases hpos with (h | ⟨k, r, hk, hr1⟩) | ⟨c, _, hc1, hc2⟩
    · exact hsum (by omega)
    · by_cases hki : i + j + 1 = k
      · subst hki
        rw [e2] at hk
        simp only [Option.some.injEq] at hk
        exact hsum (by omega)
      · right
        exact ⟨k, r, by rw [List.getElem?_set_ne hki]; exact hk, hr1⟩
    · simp only [Nat.add_sub_cancel] at hc1
      rw [e1] at hc1
      simp only [Option.some.injEq] at hc1
      rw [← hc1] at hc2
      exact hsum (by omega)

/-- The outer loop of `multiply` keeps a positive cell: if a cell is positive
before, or the first product of the first row is, a cell is positive in the
final accumulator. -/
theorem outerLoop_pos (number other : List Char) (hnum : number.all isdigit = true)
    (ho : other.all isdigit = true) :
    ∀ (i : Nat) (result : List Int), i ≤ number.length →
      result.length = number.length + other.length → (∀ r ∈ result, 0 ≤ r) →
      ((∃ (k : Nat) (r : Int), result[k]? = some r ∧ 0 < r) ∨
        (∃ c d, 0 < i ∧ number[i - 1]? = some c ∧ 0 < digitVal c ∧
          0 < other.length ∧ other[other.length - 1]? = some d ∧ 0 < digitVal d)) →
      ∀ result1, outerLoop number other i result = .ok result1 →
        ∃ (k : Nat) (r : Int), result1[k]? = some r ∧ 0 < r := by
  intro i
  induction i with
  | zero =>
    intro result _ _ _ hpos result1 hrun
    simp only [outerLoop, Except.ok.injEq] at hrun
    rw [← hrun]
    rcases hpos with h | ⟨c, d, h, _⟩
    · exact h
    · omega
  | succ i ih =>
    intro result hi hlen hr hpos result1 hrun
    have hi1 : i < number.length := by omega
    have e1 : number[i]? = some number[i] := List.getElem?_eq_getElem hi1
    have hd := digitVal_bounds (List.all_eq_true.mp hnum _ (List.getElem?_mem e1))
    obtain ⟨res, car, h1, h2, h3, h4⟩ :=
      innerLoop_ok (digitVal number[i]) other i hd.1 ho other.length result 0 (le_refl _)
        (by omega) hr (le_refl 0)
    have hi2 : i + other.length < res.length := by omega
    have e2 : res[i + other.length]? = some res[i + other.length] :=
      List.getElem?_eq_getElem hi2
    have hr0 : 0 ≤ res[i + other.length] := h3 _ (List.getElem?_mem e2)
    simp only [outerLoop, e1, h1, e2] at hrun
    have hin : 0 < car ∨ ∃ (k : Nat) (r : Int), res[k]? = some r ∧ 0 < r := by
      apply innerLoop_pos (digitVal number[i]) other i hd.1 ho other.length result 0
        (le_refl _) (by omega) hr (le_refl 0) _ res car h1
      rcases hpos with h | ⟨c, d, _, hc1, hc2, hd0, hd1, hd2⟩
      · exact Or.inl (Or.inr h)
      · right
        simp only [Nat.add_sub_cancel] at hc1
        rw [e1] at hc1
        simp only [Option.some.injEq] at hc1
        rw [← hc1] at hc2
        exact ⟨d, hd0, hd1, Int.mul_pos hc2 hd2⟩
    refine ih _ (by omega) (by rw [List.length_set, h2, hlen]) ?_ (Or.inl ?_) result1 hrun
    · intro r hmem
      rcases List.mem_or_eq_of_mem_set hmem with h | h
      · exact h3 r h
      · rw [h]
        omega
    · rcases hin with h | ⟨k, r, hk, hr1⟩
      · exact ⟨i + other.length, _, List.getElem?_set_self hi2, by omega⟩
      · by_cases hki : i + other.length = k
        · subst hki
          rw [e2] at hk
          simp only [Option.some.injEq] at hk
          exact ⟨i + other.length, _, List.getElem?_set_self hi2, by omega⟩
        · exact ⟨k, r, by rw [List.getElem?_set_ne hki]; exact hk, hr1⟩

/-- The most significant stored digit of a non-zero number is positive. -/
theorem last_digit_pos {l : List Char} (hne : l ≠ []) (hd : l.all isdigit = true)
    (hl : l.getLast? = some '0' → l = ['0']) (hz : l ≠ ['0']) :
    ∃ c, l[l.length - 1]? = some c ∧ 0 < digitVal c := by
  have hlen := List.length_pos.mpr hne
  have e : l[l.length - 1]? = some l[l.length - 1] := List.getElem?_eq_getElem (by omega)
  refine ⟨_, e, ?_⟩
  have hdc := List.all_eq_true.mp hd _ (List.getElem?_mem e)
  have hb := (isdigit_iff _).mp hdc
  have hne0 : l[l.length - 1] ≠ '0' := by
    intro h0
    apply hz
    apply hl
    rw [List.getLast?_eq_getElem?, e, h0]
  have hnat : (l[l.length - 1]).toNat ≠ ('0' : Char).toNat := fun h =>
    hne0 (char_eq_of_toNat h)
  have h48 : ('0' : Char).toNat = 48 := rfl
  unfold digitVal
  omega

/-- The product of two non-zero operands: the loops leave a positive cell, so
the digits are those of the accumulator and the sign is set from the signs of
the operands. -/
theorem multiply_nonzero {a b : BigInt} (ha : Inv a) (hb : Inv b)
    (hza : a.number ≠ ['0']) (hzb : b.number ≠ ['0']) :
    ∃ r, a.multiply b = .ok r ∧ r.is_negative = (a.is_negative != b.is_negative) ∧
      r.number ≠ ['0'] ∧ Inv r := by
  obtain ⟨a1, a2, a3, _⟩ := ha
  obtain ⟨b1, b2, b3, _⟩ := hb
  have hinit : ∀ r ∈ List.replicate (a.number.length + b.number.length) (0 : Int), 0 ≤ r := by
    intro r hr
    rw [(List.mem_replicate.mp hr).2]
  obtain ⟨result, h1, _, h3⟩ := outerLoop_ok a.number b.number a2 b2 a.number.length
    (List.replicate (a.number.length + b.number.length) 0) (le_refl _) (by simp) hinit
  obtain ⟨ca, hca1, hca2⟩ := last_digit_pos a1 a2 a3 hza
  obtain ⟨cb, hcb1, hcb2⟩ := last_digit_pos b1 b2 b3 hzb
  have hla := List.length_pos.mpr a1
  have hlb := List.length_pos.mpr b1
  obtain ⟨k, r, hk, hr⟩ := outerLoop_pos a.number b.number a2 b2 a.number.length
    (List.replicate (a.number.length + b.number.length) 0) (le_refl _) (by simp) hinit
    (Or.inr ⟨ca, cb, hla, hca1, hca2, hlb, hcb1, hcb2⟩) result h1
  have he : ¬ (result.dropWhile (fun r => r == 0)).isEmpty = true := by
    intro h
    rw [List.isEmpty_iff, List.dropWhile_eq_nil_iff] at h
    have := h r (List.getElem?_mem hk)
    simp only [beq_iff_eq] at this
    omega
  have he2 : (result.dropWhile (fun r => r == 0)).isEmpty = false := by simpa using he
  obtain ⟨m1, m2, m3⟩ := multiplyArg_spec h3
  have hdec := ofString_decimal (Or.inl rfl) m1 m2
  rw [List.nil_append] at hdec
  have hn : ¬ (a.number.length = 0 ∨ b.number.length = 0) := by omega
  have harg : multiplyArg result = concatDigits (result.dropWhile (fun r => r == 0)) := by
    simp [multiplyArg, he2]
  have hhead := m3 he2
  rw [stripLeadingZeros_of_head hhead] at hdec
  simp only [m1, if_false] at hdec
  have hlast : (multiplyArg result).reverse.getLast? ≠ some '0' := by
    rw [List.getLast?_reverse]
    exact hhead
  have hne0 : (multiplyArg result).reverse ≠ ['0'] := by
    intro h
    apply hlast
    rw [h]
    rfl
  unfold BigInt.multiply
  simp only [hn, if_false, h1, he, ← harg, hdec]
  refine ⟨_, rfl, rfl, hne0, ?_⟩
  exact ⟨by simpa using m1, by simpa using m2, fun h => absurd h hlast,
    fun h => absurd h hne0⟩

/-- Claim C19, the sign of a product: on operands satisfying the invariant, if
either denotes zero the product is the canonical zero with
`is_negative = false`; otherwise the product has a non-zero magnitude, its
sign flag is the exclusive or of the sign flags of the operands, and it is
rendered neither as `0` nor as `-0`. -/
theorem product_sign (a b : BigInt) (ha : Inv a) (hb : Inv b) :
    ((value a = 0 ∨ value b = 0) → a.multiply b = .ok ⟨['0'], false⟩) ∧
    (value a ≠ 0 → value b ≠ 0 →
      ∃ r, a.multiply b = .ok r ∧ magnitude r.number ≠ 0 ∧
        r.is_negative = xor a.is_negative b.is_negative ∧
        render r ≠ ['0'] ∧ render r ≠ ['-', '0']) := by
  constructor
  · intro h
    apply multiply_zero ha.1 hb.1
    rcases h with h | h
    · exact Or.inl ((value_zero_iff ha).mp h)
    · exact Or.inr ((value_zero_iff hb).mp h)
  · intro hza hzb
    obtain ⟨r, h1, h2, h3, h4⟩ := multiply_nonzero ha hb
      (fun h => hza ((value_zero_iff ha).mpr h)) (fun h => hzb ((value_zero_iff hb).mpr h))
    refine ⟨r, h1, fun h => h3 ((magnitude_zero_iff h4).mp h), ?_, ?_, ?_⟩
    · rw [h2]
    · intro h
      apply h3
      unfold render at h
      cases hs : r.is_negative
      · rw [hs] at h
        simp only [Bool.false_eq_true, if_false, List.nil_append] at h
        have := congrArg List.reverse h
        rw [List.reverse_reverse] at this
        exact this
      · rw [hs] at h
        simp only [if_true, List.singleton_append, List.cons.injEq] at h
        exact absurd h.1 (by decide)
    · intro h
      apply h3
      unfold render at h
      cases hs : r.is_negative
      · rw [hs] at h
        simp only [Bool.false_eq_true, if_false, List.nil_append] at h
        exfalso
        have h5 := congrArg List.reverse h
        rw [List.reverse_reverse] at h5
        have h6 := h4.2.1
        rw [h5] at h6
        exact absurd h6 (by decide)
      · rw [hs] at h
        simp only [if_true, List.singleton_append, List.cons.injEq, true_and] at h
        have := congrArg List.reverse h
        rw [List.reverse_reverse] at this
        exact this

theorem product_sign_witness :
    ((value ⟨['2', '1'], true⟩ = 0 ∨ value ⟨['3'], false⟩ = 0) →
      (⟨['2', '1'], true⟩ : BigInt).multiply ⟨['3'], false⟩ = .ok ⟨['0'], false⟩) ∧
    (value ⟨['2', '1'], true⟩ ≠ 0 → value ⟨['3'], false⟩ ≠ 0 →
      ∃ r, (⟨['2', '1'], true⟩ : BigInt).multiply ⟨['3'], false⟩ = .ok r ∧
        magnitude r.number ≠ 0 ∧
        r.is_negative = xor (⟨['2', '1'], true⟩ : BigInt).is_negative
          (⟨['3'], false⟩ : BigInt).is_negative ∧
        render r ≠ ['0'] ∧ render r ≠ ['-', '0']) :=
  product_sign ⟨['2', '1'], true⟩ ⟨['3'], false⟩ (by decide) (by decide)

/-! ## The algebraic laws at concrete operands -/

/-- Claim C14, a defect of the code, shown at `2 * 15` and `15 * 2`: the
operands satisfy the invariant and denote 2 and 15; `2 * 15` is rendered `3`,
`15 * 2` is rendered `12`, and `operator==` finds the two products
different. -/
theorem multiply_2_15 :
    BigInt.ofString "2".toList = .ok ⟨['2'], false⟩ ∧
    BigInt.ofString "15".toList = .ok ⟨['5', '1'], false⟩ ∧
    Inv ⟨['2'], false⟩ ∧ Inv ⟨['5', '1'], false⟩ ∧
    value ⟨['2'], false⟩ = 2 ∧ value ⟨['5', '1'], false⟩ = 15 ∧
    BigInt.multiply ⟨['2'], false⟩ ⟨['5', '1'], false⟩ = .ok ⟨['3'], false⟩ ∧
    BigInt.multiply ⟨['5', '1'], false⟩ ⟨['2'], false⟩ = .ok ⟨['2', '1'], false⟩ ∧
    render ⟨['3'], false⟩ = "3".toList ∧ render ⟨['2', '1'], false⟩ = "12".toList ∧
    BigInt.eq ⟨['3'], false⟩ ⟨['2', '1'], false⟩ = false := by
  refine ⟨rfl, rfl, by decide, by decide, by decide, by decide, rfl, rfl, rfl, rfl, rfl⟩

/-- Claim C15, a defect of the code, shown at `a = 1`, `b = 1`, `c = 9`: the
operands satisfy the invariant; `a + b` is 2 and `(a + b) + c` is 11, while
`b + c` is 10, stored as `"01"`, and `a + (b + c)` is 2; `operator==` finds
the two sums different. -/
theorem add_1_1_9 :
    Inv ⟨['1'], false⟩ ∧ Inv ⟨['9'], false⟩ ∧
    value ⟨['1'], false⟩ = 1 ∧ value ⟨['9'], false⟩ = 9 ∧
    BigInt.add ⟨['1'], false⟩ ⟨['1'], false⟩ = .ok ⟨['2'], false⟩ ∧
    BigInt.add ⟨['2'], false⟩ ⟨['9'], false⟩ = .ok ⟨['1', '1'], false⟩ ∧
    BigInt.add ⟨['1'], false⟩ ⟨['9'], false⟩ = .ok ⟨['0', '1'], false⟩ ∧
    BigInt.add ⟨['1'], false⟩ ⟨['0', '1'], false⟩ = .ok ⟨['2'], false⟩ ∧
    value ⟨['1', '1'], false⟩ = 11 ∧ value ⟨['0', '1'], false⟩ = 10 ∧
    value ⟨['2'], false⟩ = 2 ∧
    BigInt.eq ⟨['1', '1'], false⟩ ⟨['2'], false⟩ = false := by
  refine ⟨by decide, by decide, by decide, by decide, rfl, rfl, rfl, rfl, by decide,
    by decide, by decide, rfl⟩

/-- Claim C16, a defect of the code, shown at `12 * BigInt(1)`: the operands
satisfy the invariant and denote 12 and 1; the product is rendered `21` and
`operator==` finds it different from `a`. -/
theorem multiply_12_one :
    BigInt.ofString "12".toList = .ok ⟨['2', '1'], false⟩ ∧
    BigInt.ofInt64 1 = ⟨['1'], false⟩ ∧
    Inv ⟨['2', '1'], false⟩ ∧ Inv (BigInt.ofInt64 1) ∧
    value ⟨['2', '1'], false⟩ = 12 ∧ value (BigInt.ofInt64 1) = 1 ∧
    BigInt.multiply ⟨['2', '1'], false⟩ (BigInt.ofInt64 1) = .ok ⟨['1', '2'], false⟩ ∧
    render ⟨['1', '2'], false⟩ = "21".toList ∧
    BigInt.eq ⟨['1', '2'], false⟩ ⟨['2', '1'], false⟩ = false := by
  refine ⟨rfl, rfl, by decide, by decide, by decide, by decide, rfl, rfl, rfl⟩

/-- Claim C20, a defect of the code, shown at `10 + BigInt()` and
`10 - BigInt()`: the operand satisfies the invariant and denotes 10, stored as
`"01"`; both results are rendered `1` and `operator==` finds them different
from `a`. -/
theorem add_subtract_default_10 :
    BigInt.ofString "10".toList = .ok ⟨['0', '1'], false⟩ ∧
    Inv ⟨['0', '1'], false⟩ ∧ Inv BigInt.default ∧
    value ⟨['0', '1'], false⟩ = 10 ∧ value BigInt.default = 0 ∧
    addStrings ['0', '1'] ['0'] = ['0', '1'] ∧
    BigInt.add ⟨['0', '1'], false⟩ BigInt.default = .ok ⟨['1'], false⟩ ∧
    BigInt.subtract ⟨['0', '1'], false⟩ BigInt.default = .ok ⟨['1'], false⟩ ∧
    render ⟨['1'], false⟩ = "1".toList ∧
    BigInt.eq ⟨['1'], false⟩ ⟨['0', '1'], false⟩ = false := by
  refine ⟨rfl, by decide, by decide, by decide, by decide, rfl, rfl, rfl, rfl, rfl⟩

/-- Claim C21, a defect of the code, shown at `77 * 7`: the operands satisfy
the invariant and have 2 and 1 digits; after the loops the accumulator is
`[0, 13, 13]`, so two of its cells hold a number above 9 and `to_string`
writes two characters for each; the product is rendered `1313` and its
magnitude has 4 digits, more than `2 + 1`. -/
theorem multiply_77_7 :
    BigInt.ofString "77".toList = .ok ⟨['7', '7'], false⟩ ∧
    BigInt.ofString "7".toList = .ok ⟨['7'], false⟩ ∧
    Inv ⟨['7', '7'], false⟩ ∧ Inv ⟨['7'], false⟩ ∧
    outerLoop ['7', '7'] ['7'] 2 (List.replicate (2 + 1) 0) = .ok [0, 13, 13] ∧
    ¬ (∀ r ∈ ([0, 13, 13] : List Int), 0 ≤ r ∧ r ≤ 9) ∧
    to_string 13 = ['1', '3'] ∧
    multiplyArg [0, 13, 13] = "1313".toList ∧
    BigInt.multiply ⟨['7', '7'], false⟩ ⟨['7'], false⟩ = .ok ⟨['3', '1', '3', '1'], false⟩ ∧
    render ⟨['3', '1', '3', '1'], false⟩ = "1313".toList ∧
    (⟨['3', '1', '3', '1'], false⟩ : BigInt).number.length = 4 ∧
    ¬ ((⟨['3', '1', '3', '1'], false⟩ : BigInt).number.length
        ≤ (⟨['7', '7'], false⟩ : BigInt).number.length
          + (⟨['7'], false⟩ : BigInt).number.length) := by
  refine ⟨rfl, rfl, by decide, by decide, rfl, by decide, rfl, rfl, rfl, rfl, rfl, by decide⟩

/-! ## Unary negation -/

theorem neg_of_ne_zero {a : BigInt} (h : a.number ≠ ['0']) :
    a.neg = ⟨a.number, !a.is_negative⟩ := by
  have : (a.number != ['0']) = true := by simpa using h
  simp [BigInt.neg, this]

theorem neg_of_zero {a : BigInt} (h : a.number = ['0']) : a.neg = a := by
  have : (a.number != ['0']) = false := by simp [h]
  simp [BigInt.neg, this]

/-- Claim C22, unary negation: for every `a` satisfying the invariant, `-a`
has the digit sequence of `a` and the opposite sign flag unless `a` denotes
zero, in which case `-a == a`; the value of `-a` is the opposite of the
value of `a`, and `-(-a) == a`. -/
theorem unary_negation (a : BigInt) (ha : Inv a) :
    (value a ≠ 0 → a.neg.number = a.number ∧ a.neg.is_negative = !a.is_negative) ∧
    (value a = 0 → a.neg = a ∧ a.neg.eq a = true) ∧
    value a.neg = -value a ∧
    a.neg.neg.eq a = true := by
  by_cases hz : a.number = ['0']
  · have hv : value a = 0 := (value_zero_iff ha).mpr hz
    have hn := neg_of_zero hz
    refine ⟨fun h => absurd hv h, fun _ => ⟨hn, by rw [hn]; exact eq_self a⟩, ?_, ?_⟩
    · rw [hn, hv]
      rfl
    · rw [hn, hn]
      exact eq_self a
  · have hv : value a ≠ 0 := fun h => hz ((value_zero_iff ha).mp h)
    have hn := neg_of_ne_zero hz
    have hnn : a.neg.neg = a := by
      rw [hn]
      have h2 : (⟨a.number, !a.is_negative⟩ : BigInt).number ≠ ['0'] := hz
      rw [neg_of_ne_zero h2]
      cases a
      simp
    refine ⟨fun _ => by rw [hn]; exact ⟨rfl, rfl⟩, fun h => absurd h hv, ?_, ?_⟩
    · rw [hn]
      unfold value
      cases a.is_negative
      · simp
      · simp
    · rw [hnn]
      exact eq_self a

theorem unary_negation_witness :
    (value ⟨['2', '1'], true⟩ ≠ 0 →
      (BigInt.neg ⟨['2', '1'], true⟩).number = (⟨['2', '1'], true⟩ : BigInt).number ∧
      (BigInt.neg ⟨['2', '1'], true⟩).is_negative
        = !(⟨['2', '1'], true⟩ : BigInt).is_negative) ∧
    (value ⟨['2', '1'], true⟩ = 0 →
      BigInt.neg ⟨['2', '1'], true⟩ = ⟨['2', '1'], true⟩ ∧
      (BigInt.neg ⟨['2', '1'], true⟩).eq ⟨['2', '1'], true⟩ = true) ∧
    value (BigInt.neg ⟨['2', '1'], true⟩) = -value ⟨['2', '1'], true⟩ ∧
    (BigInt.neg (BigInt.neg ⟨['2', '1'], true⟩)).eq ⟨['2', '1'], true⟩ = true :=
  unary_negation ⟨['2', '1'], true⟩ (by decide)

end CSE701
